import Mathlib

/-!
# Sorted forest index and its two depth-first traversals

A shallow embedding of `src/main.cpp`: the node record `Elem`, the comparators
`CompareWeight` and `CompElemToParentId`, the generator of the nodes (`generate`), the
construction of the index `elems` by draining a `std::priority_queue`, the range query
`find` (`std::equal_range`), and the two traversals `run_rec` and `run_stack` (with the
single iteration `stack_step` of the latter).  The statistics `mean` / `stddev` of the
harness (main.cpp 139-151) compute in IEEE `double`; they are not embedded.

Modelling conventions.

* C++ `int` fields are `Int`.  The comparators only compare, and the only arithmetic on an
  `int` in the traversals is `depth + 1`; in a forest with unique non-negative `int` ids there
  are at most `2^31` nodes, so a depth never exceeds `2^31 - 1` and no wrap-around can occur.
* A `const Elem*` into the vector `elems` is the position (a `Nat`) of the element.
* An iterator pair returned by `find` is a pair of positions `(first, last)`.
* `std::priority_queue`, `std::equal_range` are library code; they are modelled by the
  contract the C++ standard gives them (see the doc comments of `pq_top`, `lower_bound`,
  `upper_bound`).
* Loops whose termination depends on the data carry a fuel argument; running out of fuel is
  the result `none`.
-/

namespace StackVsRec

/-- The node record `struct Elem` (main.cpp 12-17). -/
structure Elem where
  id : Int
  parentId : Int
  weight : Int
  name : String
deriving DecidableEq, Repr

/-- First overload `CompElemToParentId::operator()(const Elem&, int)` (main.cpp 27). -/
def CompElemToParentId.elemPid (el : Elem) (pid : Int) : Bool :=
  decide (el.parentId < pid)

/-- Second overload `CompElemToParentId::operator()(int, const Elem&)` (main.cpp 28). -/
def CompElemToParentId.pidElem (pid : Int) (el : Elem) : Bool :=
  decide (el.parentId > pid)

/-- The comparator `CompareWeight::operator()` (main.cpp 31-38). -/
def CompareWeight (e1 e2 : Elem) : Bool :=
  if e1.parentId = e2.parentId then
    if e1.weight = e2.weight then decide (e1.id < e2.id)
    else decide (e1.weight > e2.weight)
  else decide (e1.parentId > e2.parentId)

/-- The call `priority_queue::top()` with comparator `CompareWeight`: the standard specifies
the priority queue as a max-heap for the comparator, so `top` is an element of the queue
that the comparator puts below no other element.  The queue is represented by the list of
the elements it holds; the scan keeps the first greatest element it meets. -/
def pq_top : List Elem → Option Elem
  | [] => none
  | x :: xs => some (xs.foldl (fun best y => if CompareWeight best y then y else best) x)

/-- The call `priority_queue::pop()`: removes the element that `top()` returns. -/
def pq_pop (q : List Elem) : List Elem :=
  match pq_top q with
  | none => q
  | some t => q.erase t

/-- The loop `while (!elems_q.empty()) { elems.push_back(elems_q.top()); elems_q.pop(); }`
(main.cpp 73-76).  Every iteration removes one element, so `fuel = elems_q.size()`
iterations empty the queue. -/
def drain : Nat → List Elem → List Elem → List Elem
  | 0, _, elems => elems
  | fuel + 1, q, elems =>
    match pq_top q with
    | none => elems
    | some t => drain fuel (pq_pop q) (elems ++ [t])

/-- The index `elems` built from the records pushed into `elems_q` (main.cpp 50-76):
`input` lists the records in the order they are pushed. -/
def build (input : List Elem) : List Elem :=
  drain input.length input []

/-- The call `std::lower_bound(first, last, value, comp)` as the standard specifies it: the
furthermost position `i` such that `comp(*j, value)` holds for every `j` before `i`. -/
def lower_bound (elems : List Elem) (pid : Int) : Nat :=
  (elems.takeWhile (fun el => CompElemToParentId.elemPid el pid)).length

/-- The call `std::upper_bound(first, last, value, comp)` as the standard specifies it: the
furthermost position `i` such that `!comp(value, *j)` holds for every `j` before `i`. -/
def upper_bound (elems : List Elem) (pid : Int) : Nat :=
  (elems.takeWhile (fun el => !CompElemToParentId.pidElem pid el)).length

/-- The lambda `find` (main.cpp 79-82): `std::equal_range` over the whole of `elems`, which
the standard defines as the pair of `lower_bound` and `upper_bound`. -/
def find (elems : List Elem) (parentId : Int) : Nat × Nat :=
  (lower_bound elems parentId, upper_bound elems parentId)

/-- The positions a range-based `for` over an iterator pair visits, in order
(`begin`/`end` of a pair, main.cpp 23-24). -/
def rangeIdx (r : Nat × Nat) : List Nat :=
  List.range' r.1 (r.2 - r.1)

/-- The output vector of a traversal: pairs of a node position and a depth. -/
abbrev Output := List (Nat × Int)

/-- The recursive lambda `print_tree` (main.cpp 107-112).  `fuel` bounds the depth of the
recursion (the call stack); dereferencing a position outside `elems` is a fault. -/
def print_tree (elems : List Elem) : Nat → Nat × Nat → Int → Output → Option Output
  | 0, _, _, _ => none
  | fuel + 1, els, indent, output =>
    (rangeIdx els).foldlM (fun out i =>
      match elems[i]? with
      | none => none
      | some el => print_tree elems fuel (find elems el.id) (indent + 1) (out ++ [(i, indent)]))
      output

/-- The lambda `run_rec` (main.cpp 106-114). -/
def run_rec (elems : List Elem) (fuel : Nat) (output : Output) : Option Output :=
  print_tree elems fuel (find elems (-1)) 0 output

/-- The loop `for (auto &i : range) st.emplace(&i, depth)` (main.cpp 97 and 102): the top
of the stack is the head of the list. -/
def push_range (r : Nat × Nat) (depth : Int) (st : List (Nat × Int)) : List (Nat × Int) :=
  (rangeIdx r).foldl (fun s i => (i, depth) :: s) st

/-- The loop `while (!st.empty()) { ... }` of `run_stack` (main.cpp 98-103); `fuel` bounds
the number of iterations. -/
def run_stack_loop (elems : List Elem) : Nat → List (Nat × Int) → Output → Option Output
  | _, [], output => some output
  | 0, _ :: _, _ => none
  | fuel + 1, eli :: st, output =>
    match elems[eli.1]? with
    | none => none
    | some el =>
      run_stack_loop elems fuel (push_range (find elems el.id) (eli.2 + 1) st)
        (output ++ [(eli.1, eli.2)])

/-- The lambda `run_stack` (main.cpp 91-104). -/
def run_stack (elems : List Elem) (fuel : Nat) (output : Output) : Option Output :=
  run_stack_loop elems fuel (push_range (find elems (-1)) 0 []) output

/-- The four records of the example scenario. -/
def exampleInput : List Elem :=
  [⟨0, -1, 5, "elem0"⟩, ⟨1, -1, 9, "elem1"⟩, ⟨2, -1, 5, "elem2"⟩, ⟨3, 1, 1, "elem3"⟩]


/-! ## Notions used to state the properties -/

/-- The relation `AncestorEdges nodes e k`: from the record `e`, following `parentId` to the
record of `nodes` with that id, `k` times, arrives at a record with `parentId = -1`. -/
inductive AncestorEdges (nodes : List Elem) : Elem → Nat → Prop
  | root {e : Elem} : e ∈ nodes → e.parentId = -1 → AncestorEdges nodes e 0
  | step {e p : Elem} {k : Nat} : e ∈ nodes → p ∈ nodes → e.parentId = p.id →
      AncestorEdges nodes p k → AncestorEdges nodes e (k + 1)

/-- The forest invariant of the data model: ids are unique and non-negative, and the chain
of parent references of every record reaches a root. -/
structure Forest (nodes : List Elem) : Prop where
  ids_unique : (nodes.map (fun e => e.id)).Nodup
  ids_nonneg : ∀ e ∈ nodes, 0 ≤ e.id
  reaches_root : ∀ e ∈ nodes, ∃ k, AncestorEdges nodes e k

/-- What is known of an index built from a forest: it is a forest and it is sorted by
`parentId`. -/
structure ForestIndex (elems : List Elem) : Prop where
  forest : Forest elems
  sorted : elems.Pairwise (fun a b => a.parentId ≤ b.parentId)

/-- The record at position `i` of the index has `k` ancestor edges. -/
def NodeDepth (elems : List Elem) (i k : Nat) : Prop :=
  ∃ e, elems[i]? = some e ∧ AncestorEdges elems e k

/-- The relation `Traversal kids l o`: the list `o` is the pre-order traversal of the trees
rooted at the nodes of `l`, in the order of `l`, where `kids a` lists the children of `a` in
the order they are visited. -/
inductive Traversal {α : Type} (kids : α → List α) : List α → List α → Prop
  | nil : Traversal kids [] []
  | cons {a : α} {l o1 o2 : List α} :
      Traversal kids (kids a) o1 → Traversal kids l o2 →
      Traversal kids (a :: l) (a :: (o1 ++ o2))

/-- The relation `Descendant kids a b`: the node `b` is below `a`, at least one level
down. -/
inductive Descendant {α : Type} (kids : α → List α) : α → α → Prop
  | child {a b : α} : b ∈ kids a → Descendant kids a b
  | step {a c b : α} : c ∈ kids a → Descendant kids c b → Descendant kids a b


/-- The children of an output pair `(position, depth)`: the positions of the range
`find(id)` of its record, one level deeper, in range order. -/
def childNodes (elems : List Elem) (a : Nat × Int) : List (Nat × Int) :=
  match elems[a.1]? with
  | none => []
  | some el => (rangeIdx (find elems el.id)).map (fun i => (i, a.2 + 1))

/-- The children of an output pair in the reverse of the range order. -/
def childNodesRev (elems : List Elem) (a : Nat × Int) : List (Nat × Int) :=
  (childNodes elems a).reverse

/-- The roots: the positions of the range `find(-1)` at depth 0, in range order. -/
def rootNodes (elems : List Elem) : List (Nat × Int) :=
  (rangeIdx (find elems (-1))).map (fun i => (i, 0))


/-- The (id, depth) pairs of an output: each position is replaced by the id of the record
it points to. -/
def idDepth (elems : List Elem) (out : Output) : List (Int × Int) :=
  out.filterMap (fun p => (elems[p.1]?).map (fun e => (e.id, p.2)))

/-- The ids of the records at the positions of a range, in range order. -/
def rangeIds (elems : List Elem) (r : Nat × Nat) : List Int :=
  (rangeIdx r).filterMap (fun i => (elems[i]?).map (fun e => e.id))

/-- The place in the output where the node at position `i` of the index is output first
(the length of the output when it is not output). -/
def emitIdx (out : Output) (i : Nat) : Nat :=
  (out.map Prod.fst).indexOf i

/-- Both nodes are output, and the node at position `x` is output before the node at
position `y`. -/
def EmittedBefore (out : Output) (x y : Nat) : Prop :=
  emitIdx out x < emitIdx out y ∧ emitIdx out y < out.length

/-- The record at position `j` names the id of the record at position `i` as its parent. -/
def IsChild (elems : List Elem) (i j : Nat) : Prop :=
  ∃ p c, elems[i]? = some p ∧ elems[j]? = some c ∧ c.parentId = p.id

/-- The node at position `j` is a descendant of the node at position `i`: a child, or a
descendant of a child. -/
inductive IsDescendant (elems : List Elem) : Nat → Nat → Prop
  | child {i j : Nat} : IsChild elems i j → IsDescendant elems i j
  | step {i m j : Nat} : IsChild elems i m → IsDescendant elems m j → IsDescendant elems i j

/-! ## The generator of the input (main.cpp 42-67)

The random engine is an oracle: `distr id` is the weight drawn for the node `id`, and
`distr1 min_id max_id id` is the outcome of the draw from
`std::uniform_int_distribution<> distr1(min_id, max_id)` made for the node `id`; a
`uniform_int_distribution(a, b)` draws from the closed interval `[a, b]`.  The three
constants `num_root_nodes`, `num_child_nodes`, `max_child_depth` are parameters. -/

/-- The loop that creates the root nodes (main.cpp 53-56): `i` iterations left, next id
`id`, queue content `q`; returns the next id and the queue content. -/
def genRoots (distr : Int → Int) : Nat → Int → List Elem → Int × List Elem
  | 0, id, q => (id, q)
  | i + 1, id, q =>
    genRoots distr i (id + 1) (q ++ [⟨id, -1, distr id, "elem" ++ toString id⟩])

/-- The inner loop over `c` (main.cpp 61-64) that creates the nodes of one layer. -/
def genChildren (distr1 : Int → Int → Int → Int) (distr : Int → Int) (min_id max_id : Int) :
    Nat → Int → List Elem → Int × List Elem
  | 0, id, q => (id, q)
  | c + 1, id, q =>
    genChildren distr1 distr min_id max_id c (id + 1)
      (q ++ [⟨id, distr1 min_id max_id id, distr id, "elem" ++ toString id⟩])

/-- The outer loop over `depth` (main.cpp 59-67), with the updates of `min_id` and
`max_id` after each layer. -/
def genLayers (distr1 : Int → Int → Int → Int) (distr : Int → Int) (num_child_nodes : Nat) :
    Nat → Int → Int → Int → List Elem → List Elem
  | 0, _, _, _, q => q
  | depth + 1, min_id, max_id, id, q =>
    let r := genChildren distr1 distr min_id max_id num_child_nodes id q
    genLayers distr1 distr num_child_nodes depth max_id r.1 r.1 r.2

/-- The records pushed into `elems_q`, in the order they are pushed (main.cpp 50-67). -/
def generate (num_root_nodes num_child_nodes max_child_depth : Nat)
    (distr1 : Int → Int → Int → Int) (distr : Int → Int) : List Elem :=
  let r := genRoots distr num_root_nodes 0 []
  genLayers distr1 distr num_child_nodes max_child_depth 0 r.1 r.1 r.2

/-- An outcome of the draws of `distr1` that the closed interval allows: every draw
returns the upper bound `max_id`. -/
def drawUpper (_min_id max_id _id : Int) : Int := max_id

/-- The ids of the records are unique and non-negative (no assumption on the parent
references). -/
structure UniqueIds (nodes : List Elem) : Prop where
  ids_unique : (nodes.map (fun e => e.id)).Nodup
  ids_nonneg : ∀ e ∈ nodes, 0 ≤ e.id

/-- One iteration of the `while` loop of `run_stack` (main.cpp 98-103) on the state
(stack, output): pop the top, append it to the output, push its children.  The result is
`none` when the loop does not iterate (empty stack) or the popped position is outside
`elems`. -/
def stack_step (elems : List Elem) (s : List (Nat × Int) × Output) :
    Option (List (Nat × Int) × Output) :=
  match s.1 with
  | [] => none
  | eli :: st =>
    match elems[eli.1]? with
    | none => none
    | some el => some (push_range (find elems el.id) (eli.2 + 1) st, s.2 ++ [(eli.1, eli.2)])

/-- The state (stack, output) of `run_stack` after `t` iterations of its `while` loop,
starting from the stack that holds the roots and the empty output. -/
def stack_state (elems : List Elem) : Nat → Option (List (Nat × Int) × Output)
  | 0 => some (push_range (find elems (-1)) 0 [], [])
  | t + 1 => (stack_state elems t).bind (stack_step elems)

/-- The recursive traversal `print_tree` with every range iterated in reverse order: the
reference traversal that `run_stack` is compared with. -/
def print_tree_rev (elems : List Elem) : Nat → Nat × Nat → Int → Output → Option Output
  | 0, _, _, _ => none
  | fuel + 1, els, indent, output =>
    (rangeIdx els).reverse.foldlM (fun out i =>
      match elems[i]? with
      | none => none
      | some el =>
        print_tree_rev elems fuel (find elems el.id) (indent + 1) (out ++ [(i, indent)]))
      output

/-- The recursive traversal from the roots with every range iterated in reverse order. -/
def run_rec_rev (elems : List Elem) (fuel : Nat) (output : Output) : Option Output :=
  print_tree_rev elems fuel (find elems (-1)) 0 output

/-- A collection with unique non-negative ids that is not a forest: a root with one child,
a node that is its own parent, and two nodes that are each other's parent. -/
def cyclicInput : List Elem :=
  [⟨0, -1, 5, "elem0"⟩, ⟨1, 0, 3, "elem1"⟩, ⟨2, 2, 1, "elem2"⟩, ⟨3, 4, 2, "elem3"⟩,
    ⟨4, 3, 2, "elem4"⟩]

/-! ## The comparator is a strict order on the key `(parentId, weight, id)` -/

theorem CompareWeight_eq_false_iff (a b : Elem) :
    CompareWeight a b = false ↔
      a.parentId < b.parentId ∨
        (a.parentId = b.parentId ∧
          (a.weight < b.weight ∨ (a.weight = b.weight ∧ b.id ≤ a.id))) := by
  unfold CompareWeight
  split_ifs with h1 h2 <;> simp only [decide_eq_false_iff_not, gt_iff_lt, not_lt] <;> omega

theorem CompareWeight_irrefl (a : Elem) : CompareWeight a a = false := by
  rw [CompareWeight_eq_false_iff]; omega

theorem CompareWeight_trans {a b c : Elem} (hab : CompareWeight a b = true)
    (hbc : CompareWeight b c = true) : CompareWeight a c = true := by
  rw [← Bool.not_eq_false, CompareWeight_eq_false_iff] at hab hbc ⊢
  omega

theorem CompareWeight_false_trans {a b c : Elem} (hab : CompareWeight a b = false)
    (hbc : CompareWeight b c = false) : CompareWeight a c = false := by
  rw [CompareWeight_eq_false_iff] at hab hbc ⊢
  omega

/-! ## The priority queue -/

theorem foldl_max_spec (xs : List Elem) (x : Elem) :
    let m := xs.foldl (fun best y => if CompareWeight best y then y else best) x
    m ∈ x :: xs ∧ ∀ y ∈ x :: xs, CompareWeight m y = false := by
  induction xs generalizing x with
  | nil =>
    exact ⟨List.mem_singleton.2 rfl, fun y hy => by
      rw [List.mem_singleton.1 hy]; exact CompareWeight_irrefl x⟩
  | cons z zs ih =>
    intro m
    by_cases hxz : CompareWeight x z = true
    · have hm : m = zs.foldl (fun best y => if CompareWeight best y then y else best) z := by
        simp [m, List.foldl_cons, hxz]
      obtain ⟨h1, h2⟩ := ih z
      rw [← hm] at h1 h2
      refine ⟨List.mem_cons_of_mem _ h1, ?_⟩
      intro y hy
      rcases List.mem_cons.1 hy with rfl | hy
      · have hmz := h2 z (List.mem_cons_self _ _)
        by_contra hc
        rw [Bool.not_eq_false] at hc
        have := CompareWeight_trans hc hxz
        rw [hmz] at this
        exact Bool.false_ne_true this
      · exact h2 y hy
    · have hm : m = zs.foldl (fun best y => if CompareWeight best y then y else best) x := by
        simp [m, List.foldl_cons, hxz]
      obtain ⟨h1, h2⟩ := ih x
      rw [← hm] at h1 h2
      rw [Bool.not_eq_true] at hxz
      refine ⟨?_, ?_⟩
      · rcases List.mem_cons.1 h1 with h | h
        · exact h ▸ List.mem_cons_self _ _
        · exact List.mem_cons_of_mem _ (List.mem_cons_of_mem _ h)
      · intro y hy
        rcases List.mem_cons.1 hy with rfl | hy
        · exact h2 _ (List.mem_cons_self _ _)
        · rcases List.mem_cons.1 hy with rfl | hy
          · exact CompareWeight_false_trans (h2 x (List.mem_cons_self _ _)) hxz
          · exact h2 y (List.mem_cons_of_mem _ hy)

theorem pq_top_eq_none_iff (q : List Elem) : pq_top q = none ↔ q = [] := by
  cases q <;> simp [pq_top]

theorem pq_top_spec {q : List Elem} {t : Elem} (h : pq_top q = some t) :
    t ∈ q ∧ ∀ y ∈ q, CompareWeight t y = false := by
  cases q with
  | nil => simp [pq_top] at h
  | cons x xs =>
    simp only [pq_top, Option.some.injEq] at h
    subst h
    exact foldl_max_spec xs x

theorem pq_pop_perm {q : List Elem} {t : Elem} (h : pq_top q = some t) :
    q.Perm (t :: pq_pop q) := by
  have hp : pq_pop q = q.erase t := by simp [pq_pop, h]
  rw [hp]
  exact List.perm_cons_erase (pq_top_spec h).1

/-- The drain loop appends to `elems` a sorted arrangement of the queue's content. -/
theorem drain_spec (fuel : Nat) (q elems : List Elem) (hf : q.length ≤ fuel) :
    ∃ s, drain fuel q elems = elems ++ s ∧ s.Perm q ∧
      s.Pairwise (fun a b => CompareWeight a b = false) := by
  induction fuel generalizing q elems with
  | zero =>
    have : q = [] := List.length_eq_zero.1 (Nat.le_zero.1 hf)
    subst this
    exact ⟨[], by simp [drain], List.Perm.refl _, List.Pairwise.nil⟩
  | succ n ih =>
    cases ht : pq_top q with
    | none =>
      have : q = [] := (pq_top_eq_none_iff q).1 ht
      subst this
      exact ⟨[], by simp [drain, ht], List.Perm.refl _, List.Pairwise.nil⟩
    | some t =>
      have hperm := pq_pop_perm ht
      have hlen : (pq_pop q).length ≤ n := by
        have := hperm.length_eq
        simp only [List.length_cons] at this
        omega
      obtain ⟨s, hs, hsp, hsw⟩ := ih (pq_pop q) (elems ++ [t]) hlen
      refine ⟨t :: s, ?_, ?_, ?_⟩
      · simp [drain, ht, hs]
      · exact (List.Perm.cons t hsp).trans hperm.symm
      · refine List.Pairwise.cons ?_ hsw
        intro b hb
        have hbq : b ∈ q := hperm.symm.subset (List.mem_cons_of_mem _ (hsp.subset hb))
        exact (pq_top_spec ht).2 b hbq

theorem build_perm (input : List Elem) : (build input).Perm input := by
  obtain ⟨s, hs, hp, _⟩ := drain_spec input.length input [] (Nat.le_refl _)
  simp only [List.nil_append] at hs
  rw [build, hs]; exact hp

theorem build_sorted (input : List Elem) :
    (build input).Pairwise (fun a b => CompareWeight a b = false) := by
  obtain ⟨s, hs, _, hw⟩ := drain_spec input.length input [] (Nat.le_refl _)
  simp only [List.nil_append] at hs
  rw [build, hs]; exact hw

theorem build_length (input : List Elem) : (build input).length = input.length :=
  (build_perm input).length_eq

theorem build_parentId_sorted (input : List Elem) :
    (build input).Pairwise (fun a b => a.parentId ≤ b.parentId) := by
  refine (build_sorted input).imp ?_
  intro a b h
  rw [CompareWeight_eq_false_iff] at h
  omega

/-! ## The range query on an index sorted by `parentId` -/

theorem takeWhile_length_le {α : Type} (p : α → Bool) (l : List α) :
    (l.takeWhile p).length ≤ l.length := by
  induction l with
  | nil => simp
  | cons a l ih =>
    rw [List.takeWhile_cons]
    split_ifs
    · simp only [List.length_cons]; omega
    · simp

theorem lt_takeWhile_length_iff {α : Type} (p : α → Bool) (l : List α)
    (h : l.Pairwise (fun a b => p b = true → p a = true)) (i : Nat) (hi : i < l.length) :
    i < (l.takeWhile p).length ↔ p l[i] = true := by
  induction l generalizing i with
  | nil => simp at hi
  | cons a l ih =>
    rw [List.pairwise_cons] at h
    rw [List.takeWhile_cons]
    cases i with
    | zero =>
      by_cases hp : p a = true <;> simp [hp]
    | succ j =>
      have hj : j < l.length := by simpa using hi
      by_cases hp : p a = true
      · simp only [hp, if_true, List.length_cons, Nat.succ_lt_succ_iff, List.getElem_cons_succ]
        exact ih h.2 j hj
      · simp only [hp, List.getElem_cons_succ]
        simp only [Bool.false_eq_true, if_false, List.length_nil, Nat.not_lt_zero, false_iff]
        intro hc
        exact hp (h.1 _ (List.getElem_mem _) hc)

theorem find_bounds (elems : List Elem) (P : Int) :
    (find elems P).1 ≤ (find elems P).2 ∧ (find elems P).2 ≤ elems.length := by
  refine ⟨?_, takeWhile_length_le _ _⟩
  simp only [find, lower_bound, upper_bound]
  induction elems with
  | nil => simp
  | cons a l ih =>
    rw [List.takeWhile_cons, List.takeWhile_cons]
    by_cases h1 : a.parentId < P
    · have h2 : ¬ a.parentId > P := by omega
      simp [CompElemToParentId.elemPid, CompElemToParentId.pidElem, h1, h2]
      simpa [CompElemToParentId.elemPid, CompElemToParentId.pidElem] using ih
    · simp [CompElemToParentId.elemPid, h1]

theorem mem_rangeIdx (r : Nat × Nat) (i : Nat) : i ∈ rangeIdx r ↔ r.1 ≤ i ∧ i < r.2 := by
  simp only [rangeIdx, List.mem_range'_1]
  omega

theorem mem_rangeIdx_lt (elems : List Elem) (P : Int) {i : Nat}
    (h : i ∈ rangeIdx (find elems P)) : i < elems.length := by
  rw [mem_rangeIdx] at h
  have := (find_bounds elems P).2
  omega

/-- On an index sorted by `parentId`, the range `find P` holds exactly the positions of the
elements whose `parentId` is `P`. -/
theorem mem_find_iff (elems : List Elem)
    (hs : elems.Pairwise (fun a b => a.parentId ≤ b.parentId)) (P : Int) (i : Nat)
    (hi : i < elems.length) :
    ((find elems P).1 ≤ i ∧ i < (find elems P).2) ↔ elems[i].parentId = P := by
  have h1 := lt_takeWhile_length_iff (fun el => CompElemToParentId.elemPid el P) elems
    (hs.imp (by
      intro a b hab hb
      simp only [CompElemToParentId.elemPid, decide_eq_true_eq] at hb ⊢
      omega)) i hi
  have h2 := lt_takeWhile_length_iff (fun el => !CompElemToParentId.pidElem P el) elems
    (hs.imp (by
      intro a b hab hb
      simp only [CompElemToParentId.pidElem, Bool.not_eq_true', decide_eq_false_iff_not] at hb ⊢
      omega)) i hi
  simp only [CompElemToParentId.elemPid, decide_eq_true_eq] at h1
  simp only [CompElemToParentId.pidElem, Bool.not_eq_true', decide_eq_false_iff_not] at h2
  have h1' := not_congr h1
  rw [Nat.not_lt] at h1'
  show (lower_bound elems P ≤ i ∧ i < upper_bound elems P) ↔ _
  rw [show (lower_bound elems P ≤ i) ↔ ¬ elems[i].parentId < P from h1',
    show (i < upper_bound elems P) ↔ ¬ elems[i].parentId > P from h2]
  omega

/-! ## Pre-order traversals of a forest given by a children function -/

section Generic

variable {α : Type} {kids : α → List α}

theorem Traversal.output_unique {l o o' : List α} (h : Traversal kids l o)
    (h' : Traversal kids l o') : o = o' := by
  induction h generalizing o' with
  | nil => cases h'; rfl
  | cons _ _ ih1 ih2 =>
    cases h' with
    | cons h1 h2 => rw [ih1 h1, ih2 h2]

theorem Traversal.append {l1 l2 o1 o2 : List α} (h1 : Traversal kids l1 o1)
    (h2 : Traversal kids l2 o2) : Traversal kids (l1 ++ l2) (o1 ++ o2) := by
  induction h1 with
  | nil => simpa using h2
  | cons ha _ _ ih =>
    have := Traversal.cons ha ih
    simpa [List.append_assoc] using this

theorem Traversal.of_append {l1 l2 o : List α} (h : Traversal kids (l1 ++ l2) o) :
    ∃ o1 o2, Traversal kids l1 o1 ∧ Traversal kids l2 o2 ∧ o = o1 ++ o2 := by
  induction l1 generalizing o with
  | nil => exact ⟨[], o, Traversal.nil, by simpa using h, rfl⟩
  | cons a l ih =>
    cases h with
    | cons ha hl =>
      obtain ⟨p1, p2, hp1, hp2, rfl⟩ := ih hl
      exact ⟨_, p2, Traversal.cons ha hp1, hp2, by simp [List.append_assoc]⟩

theorem Traversal.subset {l o : List α} (h : Traversal kids l o) : ∀ a ∈ l, a ∈ o := by
  induction h with
  | nil => intro a ha; cases ha
  | cons _ _ _ ih2 =>
    intro b hb
    rcases List.mem_cons.1 hb with rfl | hb
    · exact List.mem_cons_self _ _
    · exact List.mem_cons_of_mem _ (List.mem_append_right _ (ih2 b hb))

/-- A property that holds of the roots and passes from a node to its children holds of
every node of the traversal. -/
theorem Traversal.forall_of_closed {l o : List α} (h : Traversal kids l o) (Q : α → Prop)
    (hQ : ∀ a, Q a → ∀ b ∈ kids a, Q b) (hl : ∀ a ∈ l, Q a) : ∀ a ∈ o, Q a := by
  induction h with
  | nil => intro a ha; cases ha
  | @cons a l o1 o2 _ _ ih1 ih2 =>
    intro b hb
    have hQa : Q a := hl a (List.mem_cons_self _ _)
    rcases List.mem_cons.1 hb with rfl | hb
    · exact hQa
    · rcases List.mem_append.1 hb with hb | hb
      · exact ih1 (hQ a hQa) b hb
      · exact ih2 (fun c hc => hl c (List.mem_cons_of_mem _ hc)) b hb

/-- Visiting the roots and every children list in another order changes the output
only by a permutation (and the traversal in the other order exists). -/
theorem Traversal.perm_of_perm {kids' : α → List α} (hk : ∀ a, (kids' a).Perm (kids a))
    {l o : List α} (h : Traversal kids l o) :
    ∀ l' : List α, l'.Perm l → ∃ o', Traversal kids' l' o' ∧ o'.Perm o := by
  induction h with
  | nil =>
    intro l' hl'
    rw [List.Perm.eq_nil hl']
    exact ⟨[], Traversal.nil, List.Perm.refl _⟩
  | @cons a l o1 o2 _ _ ih1 ih2 =>
    intro l' hl'
    have ha : a ∈ l' := hl'.symm.subset (List.mem_cons_self _ _)
    obtain ⟨s, t, rfl⟩ := List.append_of_mem ha
    have hst : (s ++ t).Perm l := by
      have h1 : (a :: (s ++ t)).Perm (a :: l) := List.perm_middle.symm.trans hl'
      exact (List.perm_cons a).1 h1
    obtain ⟨q, hq, hqp⟩ := ih2 (s ++ t) hst
    obtain ⟨q1, q2, hq1, hq2, rfl⟩ := hq.of_append
    obtain ⟨r, hr, hrp⟩ := ih1 (kids' a) (hk a)
    refine ⟨q1 ++ (a :: (r ++ q2)), hq1.append (Traversal.cons hr hq2), ?_⟩
    have h2 : (q1 ++ a :: (r ++ q2)).Perm (a :: (r ++ (q1 ++ q2))) := by
      refine List.perm_middle.trans (List.Perm.cons a ?_)
      rw [← List.append_assoc, ← List.append_assoc]
      exact List.Perm.append_right q2 List.perm_append_comm
    exact h2.trans (List.Perm.cons a (List.Perm.append hrp hqp))

/-- Counting law: a node occurs in the traversal as often as it occurs among the roots plus
as often as it occurs in the children lists of the visited nodes. -/
theorem Traversal.count_eq [BEq α] [LawfulBEq α] {l o : List α} (h : Traversal kids l o) (b : α) :
    o.count b = l.count b + (o.map (fun a => (kids a).count b)).sum := by
  induction h with
  | nil => simp
  | @cons a l o1 o2 _ _ ih1 ih2 =>
    simp only [List.count_cons, List.count_append, List.map_cons, List.map_append,
      List.sum_cons, List.sum_append]
    rw [ih1, ih2]
    omega

/-- Every visited node is directly followed by the traversal of its children. -/
theorem Traversal.subtree {l o : List α} (h : Traversal kids l o) :
    ∀ a ∈ o, ∃ p oa s, o = p ++ a :: (oa ++ s) ∧ Traversal kids (kids a) oa := by
  induction h with
  | nil => intro a ha; cases ha
  | @cons a l o1 o2 h1 _ ih1 ih2 =>
    intro b hb
    rcases List.mem_cons.1 hb with rfl | hb
    · exact ⟨[], o1, o2, rfl, h1⟩
    · rcases List.mem_append.1 hb with hb | hb
      · obtain ⟨p, ob, s, rfl, hob⟩ := ih1 b hb
        exact ⟨a :: p, ob, s ++ o2, by simp [List.append_assoc], hob⟩
      · obtain ⟨p, ob, s, rfl, hob⟩ := ih2 b hb
        exact ⟨a :: (o1 ++ p), ob, s, by simp [List.append_assoc], hob⟩

/-- The traversal of the children of `a` holds every descendant of `a`. -/
theorem Descendant.mem_traversal {a b : α} (hd : Descendant kids a b) :
    ∀ oa, Traversal kids (kids a) oa → b ∈ oa := by
  induction hd with
  | child hb => intro oa h; exact h.subset _ hb
  | @step a c b hc _ ih =>
    intro oa h
    obtain ⟨p, oc, s, rfl, hoc⟩ := h.subtree c (h.subset _ hc)
    have := ih oc hoc
    simp [this]

/-- Two roots: the tree of the earlier root is output before the later root. -/
theorem Traversal.split_two {l1 l2 l3 o : List α} {a b : α}
    (h : Traversal kids (l1 ++ a :: (l2 ++ b :: l3)) o) :
    ∃ p oa m s, o = p ++ a :: (oa ++ (m ++ b :: s)) ∧ Traversal kids (kids a) oa := by
  obtain ⟨p, q, _, hq, rfl⟩ := h.of_append
  cases hq with
  | cons ha hrest =>
    obtain ⟨m, t, _, ht, rfl⟩ := hrest.of_append
    cases ht with
    | cons hb hl3 =>
      exact ⟨p, _, m, _, rfl, ha⟩

end Generic

/-! ## The forest invariant -/

theorem AncestorEdges.of_perm {nodes nodes' : List Elem} (hp : nodes.Perm nodes') {e : Elem}
    {k : Nat} (h : AncestorEdges nodes e k) : AncestorEdges nodes' e k := by
  induction h with
  | root he hr => exact AncestorEdges.root (hp.subset he) hr
  | step he hpm hid _ ih => exact AncestorEdges.step (hp.subset he) (hp.subset hpm) hid ih

theorem Forest.transfer {nodes nodes' : List Elem} (hp : nodes.Perm nodes') (h : Forest nodes) :
    Forest nodes' where
  ids_unique := (hp.map _).nodup_iff.1 h.ids_unique
  ids_nonneg := fun e he => h.ids_nonneg e (hp.symm.subset he)
  reaches_root := fun e he => by
    obtain ⟨k, hk⟩ := h.reaches_root e (hp.symm.subset he)
    exact ⟨k, hk.of_perm hp⟩

theorem Forest.id_inj {nodes : List Elem} (h : Forest nodes) {e e' : Elem} (he : e ∈ nodes)
    (he' : e' ∈ nodes) (hid : e.id = e'.id) : e = e' :=
  List.inj_on_of_nodup_map h.ids_unique he he' hid

theorem Forest.nodup {nodes : List Elem} (h : Forest nodes) : nodes.Nodup :=
  List.Nodup.of_map _ h.ids_unique

theorem AncestorEdges.mem {nodes : List Elem} {e : Elem} {k : Nat}
    (h : AncestorEdges nodes e k) : e ∈ nodes := by
  cases h with
  | root he _ => exact he
  | step he _ _ _ => exact he

theorem AncestorEdges.depth_unique {nodes : List Elem} (hF : Forest nodes) {e : Elem} {k k' : Nat}
    (h : AncestorEdges nodes e k) (h' : AncestorEdges nodes e k') : k = k' := by
  induction h generalizing k' with
  | root he hr =>
    cases h' with
    | root _ _ => rfl
    | step _ hpm hid _ =>
      have := hF.ids_nonneg _ hpm
      omega
  | step he hpm hid _ ih =>
    cases h' with
    | root _ hr =>
      have := hF.ids_nonneg _ hpm
      omega
    | step _ hpm' hid' hp' =>
      have : _ = _ := hF.id_inj hpm hpm' (by omega)
      subst this
      rw [ih hp']

theorem AncestorEdges.level {nodes : List Elem} {e : Elem} {k : Nat}
    (h : AncestorEdges nodes e k) : ∀ k', k' ≤ k → ∃ e', AncestorEdges nodes e' k' := by
  induction h with
  | root he hr =>
    intro k' hk'
    have : k' = 0 := by omega
    subst this
    exact ⟨_, AncestorEdges.root he hr⟩
  | @step e p k he hpm hid hp ih =>
    intro k' hk'
    by_cases hkk : k' = k + 1
    · subst hkk
      exact ⟨e, AncestorEdges.step he hpm hid hp⟩
    · exact ih k' (by omega)

/-- A chain of parent references in a forest visits distinct records, so it is shorter
than the number of records. -/
theorem AncestorEdges.lt_length {nodes : List Elem} (hF : Forest nodes) {e : Elem} {k : Nat}
    (h : AncestorEdges nodes e k) : k < nodes.length := by
  classical
  have hex : ∀ k' : Nat, ∃ e', k' ≤ k → AncestorEdges nodes e' k' := by
    intro k'
    by_cases hk : k' ≤ k
    · obtain ⟨e', he'⟩ := h.level k' hk
      exact ⟨e', fun _ => he'⟩
    · exact ⟨e, fun hc => absurd hc hk⟩
  choose f hf using hex
  have hcard : (Finset.range (k + 1)).card ≤ nodes.toFinset.card := by
    apply Finset.card_le_card_of_injOn f
    · intro a ha
      have ha' : a ≤ k := by
        have := Finset.mem_range.1 ha
        omega
      exact List.mem_toFinset.2 (hf a ha').mem
    · intro a ha b hb hab
      have ha' : a ≤ k := by
        have := Finset.mem_range.1 (Finset.mem_coe.1 ha)
        omega
      have hb' : b ≤ k := by
        have := Finset.mem_range.1 (Finset.mem_coe.1 hb)
        omega
      have h1 := hf a ha'
      have h2 := hf b hb'
      rw [hab] at h1
      exact AncestorEdges.depth_unique hF h1 h2
  have := List.toFinset_card_le nodes
  rw [Finset.card_range] at hcard
  omega

/-! ## The traversals compute pre-order traversals -/

theorem forestIndex_build {input : List Elem} (h : Forest input) : ForestIndex (build input) :=
  ⟨h.transfer (build_perm input).symm, build_parentId_sorted input⟩

theorem mem_find_iff_getElem? (elems : List Elem)
    (hs : elems.Pairwise (fun a b => a.parentId ≤ b.parentId)) (P : Int) (j : Nat) :
    j ∈ rangeIdx (find elems P) ↔ ∃ e, elems[j]? = some e ∧ e.parentId = P := by
  constructor
  · intro hj
    have hlt := mem_rangeIdx_lt elems P hj
    refine ⟨elems[j], List.getElem?_eq_getElem hlt, ?_⟩
    exact (mem_find_iff elems hs P j hlt).1 ((mem_rangeIdx _ _).1 hj)
  · rintro ⟨e, he, hp⟩
    obtain ⟨hlt, rfl⟩ := List.getElem?_eq_some.1 he
    exact (mem_rangeIdx _ _).2 ((mem_find_iff elems hs P j hlt).2 hp)

theorem push_range_eq (r : Nat × Nat) (d : Int) (st : List (Nat × Int)) :
    push_range r d st = ((rangeIdx r).map (fun i => (i, d))).reverse ++ st := by
  unfold push_range
  generalize rangeIdx r = l
  induction l generalizing st with
  | nil => simp
  | cons a l ih => simp [List.foldl_cons, ih]

theorem childNodes_of_some {elems : List Elem} {a : Nat × Int} {el : Elem}
    (h : elems[a.1]? = some el) :
    childNodes elems a = (rangeIdx (find elems el.id)).map (fun i => (i, a.2 + 1)) := by
  simp [childNodes, h]

theorem childNodes_valid (elems : List Elem) (a b : Nat × Int) (hb : b ∈ childNodes elems a) :
    b.1 < elems.length := by
  unfold childNodes at hb
  split at hb
  · cases hb
  · obtain ⟨i, hi, rfl⟩ := List.mem_map.1 hb
    exact mem_rangeIdx_lt _ _ hi

theorem rootNodes_valid (elems : List Elem) (b : Nat × Int) (hb : b ∈ rootNodes elems) :
    b.1 < elems.length := by
  obtain ⟨i, hi, rfl⟩ := List.mem_map.1 hb
  exact mem_rangeIdx_lt _ _ hi

/-- The loop of `run_stack` outputs the pre-order traversal, children in reverse range
order, of the trees on the stack from the top down; one unit of fuel per output pair. -/
theorem run_stack_loop_eq (elems : List Elem) :
    ∀ (fuel : Nat) (st : List (Nat × Int)) (out o : Output),
      Traversal (childNodesRev elems) st o → (∀ a ∈ st, a.1 < elems.length) →
      o.length ≤ fuel → run_stack_loop elems fuel st out = some (out ++ o) := by
  intro fuel
  induction fuel with
  | zero =>
    intro st out o ht _ hlen
    cases ht with
    | nil => simp [run_stack_loop]
    | cons _ _ => simp at hlen
  | succ f ih =>
    intro st out o ht hv hlen
    cases ht with
    | nil => simp [run_stack_loop]
    | @cons a l o1 o2 h1 h2 =>
      have ha : a.1 < elems.length := hv a (List.mem_cons_self _ _)
      have hget : elems[a.1]? = some elems[a.1] := List.getElem?_eq_getElem ha
      have hpush : push_range (find elems (elems[a.1]).id) (a.2 + 1) l =
          childNodesRev elems a ++ l := by
        rw [push_range_eq, childNodesRev, childNodes_of_some hget]
      have hstep : run_stack_loop elems (f + 1) (a :: l) out =
          run_stack_loop elems f (childNodesRev elems a ++ l) (out ++ [a]) := by
        rw [run_stack_loop, hget]
        simp only [hpush]
      rw [hstep]
      have hv' : ∀ b ∈ childNodesRev elems a ++ l, b.1 < elems.length := by
        intro b hb
        rcases List.mem_append.1 hb with hb | hb
        · exact childNodes_valid elems a b (List.mem_reverse.1 hb)
        · exact hv b (List.mem_cons_of_mem _ hb)
      have hlen' : (o1 ++ o2).length ≤ f := by
        simp only [List.length_cons] at hlen
        omega
      rw [ih _ (out ++ [a]) (o1 ++ o2) (h1.append h2) hv' hlen']
      simp [List.append_assoc]

/-- In the index of a forest the children of a node `k` levels down are `k + 1` levels
down. -/
theorem NodeDepth.child {elems : List Elem} (hF : ForestIndex elems) {k : Nat} {e : Elem}
    (hk : AncestorEdges elems e k) :
    ∀ j ∈ rangeIdx (find elems e.id), NodeDepth elems j (k + 1) := by
  intro j hj
  obtain ⟨c, hc, hcp⟩ := (mem_find_iff_getElem? elems hF.sorted e.id j).1 hj
  exact ⟨c, hc, AncestorEdges.step (List.getElem?_mem hc) hk.mem hcp hk⟩

theorem NodeDepth.root {elems : List Elem} (hF : ForestIndex elems) :
    ∀ j ∈ rangeIdx (find elems (-1)), NodeDepth elems j 0 := by
  intro j hj
  obtain ⟨c, hc, hcp⟩ := (mem_find_iff_getElem? elems hF.sorted (-1) j).1 hj
  exact ⟨c, hc, AncestorEdges.root (List.getElem?_mem hc) hcp⟩

/-- On the index of a forest `print_tree` succeeds as soon as the recursion budget covers
the levels that remain below the current one, and appends the pre-order traversal of the
trees rooted in its range. -/
theorem print_tree_eq {elems : List Elem} (hF : ForestIndex elems) :
    ∀ (fuel k : Nat) (r : Nat × Nat) (out : Output),
      1 ≤ fuel → elems.length + 1 ≤ fuel + k →
      (∀ i ∈ rangeIdx r, NodeDepth elems i k) →
      ∃ o, print_tree elems fuel r (k : Int) out = some (out ++ o) ∧
        Traversal (childNodes elems) ((rangeIdx r).map (fun i => (i, (k : Int)))) o := by
  intro fuel
  induction fuel with
  | zero => intro k r out h1; omega
  | succ f ih =>
    intro k r out _ hfk hr
    rw [print_tree]
    generalize rangeIdx r = l at hr
    induction l generalizing out with
    | nil => exact ⟨[], by simp, Traversal.nil⟩
    | cons i l ihl =>
      obtain ⟨e, he, hek⟩ := hr i (List.mem_cons_self _ _)
      have hklt := hek.lt_length hF.forest
      obtain ⟨o1, ho1, ht1⟩ := ih (k + 1) (find elems e.id) (out ++ [(i, (k : Int))])
        (by omega) (by omega) (NodeDepth.child hF hek)
      obtain ⟨o2, ho2, ht2⟩ := ihl (out ++ [(i, (k : Int))] ++ o1)
        (fun j hj => hr j (List.mem_cons_of_mem _ hj))
      have hcast : ((k + 1 : Nat) : Int) = (k : Int) + 1 := by push_cast; rfl
      rw [hcast] at ho1 ht1
      refine ⟨(i, (k : Int)) :: (o1 ++ o2), ?_, ?_⟩
      · rw [List.foldlM_cons]
        simp only [he]
        rw [ho1]
        simp only [Option.bind_eq_bind, Option.some_bind]
        rw [ho2]
        simp [List.append_assoc]
      · rw [List.map_cons]
        refine Traversal.cons ?_ ht2
        rw [childNodes_of_some (a := (i, (k : Int))) he]
        exact ht1

/-! ## Every node is output once, at its depth -/

theorem mem_childNodes_iff {elems : List Elem}
    (hs : elems.Pairwise (fun a b => a.parentId ≤ b.parentId)) (a b : Nat × Int) :
    b ∈ childNodes elems a ↔
      ∃ el c, elems[a.1]? = some el ∧ elems[b.1]? = some c ∧ c.parentId = el.id ∧
        b.2 = a.2 + 1 := by
  unfold childNodes
  cases hel : elems[a.1]? with
  | none => simp
  | some el =>
    simp only [List.mem_map, mem_find_iff_getElem? elems hs, Option.some.injEq]
    constructor
    · rintro ⟨i, ⟨c, hc, hcp⟩, rfl⟩
      exact ⟨el, c, rfl, hc, hcp, rfl⟩
    · rintro ⟨el', c, rfl, hc, hcp, hd⟩
      exact ⟨b.1, ⟨c, hc, hcp⟩, by rw [← hd]⟩

theorem mem_rootNodes_iff {elems : List Elem}
    (hs : elems.Pairwise (fun a b => a.parentId ≤ b.parentId)) (b : Nat × Int) :
    b ∈ rootNodes elems ↔ ∃ c, elems[b.1]? = some c ∧ c.parentId = -1 ∧ b.2 = 0 := by
  unfold rootNodes
  simp only [List.mem_map, mem_find_iff_getElem? elems hs]
  constructor
  · rintro ⟨i, ⟨c, hc, hcp⟩, rfl⟩
    exact ⟨c, hc, hcp, rfl⟩
  · rintro ⟨c, hc, hcp, hd⟩
    exact ⟨b.1, ⟨c, hc, hcp⟩, by rw [← hd]⟩

theorem rangeIdx_nodup (r : Nat × Nat) : (rangeIdx r).Nodup :=
  List.nodup_range' _ _

theorem childNodes_nodup (elems : List Elem) (a : Nat × Int) : (childNodes elems a).Nodup := by
  unfold childNodes
  split
  · exact List.nodup_nil
  · refine (rangeIdx_nodup _).map ?_
    intro i j hij
    exact (Prod.mk.inj hij).1

theorem rootNodes_nodup (elems : List Elem) : (rootNodes elems).Nodup := by
  refine (rangeIdx_nodup _).map ?_
  intro i j hij
  exact (Prod.mk.inj hij).1

theorem sum_map_ite_eq_count {α : Type} [BEq α] [LawfulBEq α] (o : List α) (c : α) :
    (o.map (fun a => if a == c then 1 else 0)).sum = o.count c := by
  induction o with
  | nil => simp
  | cons x o ih =>
    simp only [List.map_cons, List.sum_cons, List.count_cons, ih]
    omega

theorem count_eq_one_of_nodup {α : Type} [BEq α] [LawfulBEq α] {l : List α} {a : α}
    (hn : l.Nodup) (h : a ∈ l) : l.count a = 1 := by
  induction l with
  | nil => cases h
  | cons x l ih =>
    rw [List.nodup_cons] at hn
    rw [List.count_cons]
    rcases List.mem_cons.1 h with rfl | h
    · rw [List.count_eq_zero_of_not_mem hn.1]
      simp
    · have : x ≠ a := fun hc => hn.1 (hc ▸ h)
      rw [ih hn.2 h]
      simp [this]

theorem Forest.pos_inj {elems : List Elem} (hF : Forest elems) {i j : Nat} {e : Elem}
    (hi : elems[i]? = some e) (hj : elems[j]? = some e) : i = j := by
  obtain ⟨hi', rfl⟩ := List.getElem?_eq_some.1 hi
  obtain ⟨hj', hje⟩ := List.getElem?_eq_some.1 hj
  exact (hF.nodup.getElem_inj_iff).1 hje.symm

/-- In the traversal from the roots of the index of a forest, the pair of a position and
the number of ancestor edges of its record occurs exactly once. -/
theorem traversal_count_one {elems : List Elem} (hF : ForestIndex elems) {o : Output}
    (ho : Traversal (childNodes elems) (rootNodes elems) o) {e : Elem} {k : Nat}
    (h : AncestorEdges elems e k) :
    ∀ j, elems[j]? = some e → o.count (j, (k : Int)) = 1 := by
  induction h with
  | @root e he hr =>
    intro j hj
    rw [ho.count_eq]
    have h1 : (rootNodes elems).count (j, ((0 : Nat) : Int)) = 1 :=
      count_eq_one_of_nodup (rootNodes_nodup elems)
        ((mem_rootNodes_iff hF.sorted _).2 ⟨e, hj, hr, by simp⟩)
    have h2 : (o.map (fun a => (childNodes elems a).count (j, ((0 : Nat) : Int)))).sum = 0 := by
      apply List.sum_eq_zero
      intro x hx
      obtain ⟨a, _, rfl⟩ := List.mem_map.1 hx
      apply List.count_eq_zero_of_not_mem
      intro hmem
      obtain ⟨el, c, hel, hc, hcp, _⟩ := (mem_childNodes_iff hF.sorted _ _).1 hmem
      have hce : c = e := by
        simp only at hc
        rw [hj] at hc
        exact (Option.some.inj hc).symm
      have := hF.forest.ids_nonneg el (List.getElem?_mem hel)
      rw [hce] at hcp
      omega
    rw [h1, h2]
  | @step e p k he hpm hid hp ih =>
    intro j hj
    obtain ⟨ip, hip⟩ := List.mem_iff_getElem?.1 hpm
    rw [ho.count_eq]
    have h1 : (rootNodes elems).count (j, ((k + 1 : Nat) : Int)) = 0 := by
      apply List.count_eq_zero_of_not_mem
      intro hmem
      obtain ⟨c, hc, hcp, _⟩ := (mem_rootNodes_iff hF.sorted _).1 hmem
      have hce : c = e := by
        simp only at hc
        rw [hj] at hc
        exact (Option.some.inj hc).symm
      have := hF.forest.ids_nonneg p hpm
      rw [hce] at hcp
      omega
    have h2 : ∀ a : Nat × Int, (childNodes elems a).count (j, ((k + 1 : Nat) : Int)) =
        if a == (ip, (k : Int)) then 1 else 0 := by
      intro a
      by_cases hmem : (j, ((k + 1 : Nat) : Int)) ∈ childNodes elems a
      · rw [count_eq_one_of_nodup (childNodes_nodup elems a) hmem]
        obtain ⟨el, c, hel, hc, hcp, hd⟩ := (mem_childNodes_iff hF.sorted _ _).1 hmem
        have hce : c = e := by
          simp only at hc
          rw [hj] at hc
          exact (Option.some.inj hc).symm
        have hep : el = p :=
          hF.forest.id_inj (List.getElem?_mem hel) hpm (by rw [hce] at hcp; omega)
        rw [hep] at hel
        have h1 : a.1 = ip := hF.forest.pos_inj hel hip
        have h2 : a.2 = (k : Int) := by
          simp only [Nat.cast_add, Nat.cast_one] at hd
          omega
        have : a = (ip, (k : Int)) := Prod.ext h1 h2
        simp [this]
      · rw [List.count_eq_zero_of_not_mem hmem]
        have : a ≠ (ip, (k : Int)) := by
          rintro rfl
          apply hmem
          exact (mem_childNodes_iff hF.sorted _ _).2 ⟨p, e, hip, hj, hid, by push_cast; rfl⟩
        simp [this]
    simp only [h2]
    rw [h1, sum_map_ite_eq_count, ih ip hip]

/-- Every pair of the traversal from the roots holds a valid position and the number of
ancestor edges of the record there. -/
theorem traversal_depth {elems : List Elem} (hF : ForestIndex elems) {o : Output}
    (ho : Traversal (childNodes elems) (rootNodes elems) o) :
    ∀ a ∈ o, ∃ k : Nat, a.2 = (k : Int) ∧ NodeDepth elems a.1 k := by
  refine ho.forall_of_closed (fun a => ∃ k : Nat, a.2 = (k : Int) ∧ NodeDepth elems a.1 k) ?_ ?_
  · rintro a ⟨k, hk, e, he, hek⟩ b hb
    obtain ⟨el, c, hel, hc, hcp, hd⟩ := (mem_childNodes_iff hF.sorted _ _).1 hb
    have : el = e := by rw [he] at hel; exact (Option.some.inj hel).symm
    subst this
    refine ⟨k + 1, by rw [hd, hk]; push_cast; rfl, c, hc, ?_⟩
    exact AncestorEdges.step (List.getElem?_mem hc) hek.mem hcp hek
  · intro a ha
    obtain ⟨c, hc, hcp, hd⟩ := (mem_rootNodes_iff hF.sorted _).1 ha
    exact ⟨0, by simpa using hd, c, hc, AncestorEdges.root (List.getElem?_mem hc) hcp⟩

theorem count_map_fst_eq {o : Output} {b : Nat × Int}
    (h : ∀ a ∈ o, a.1 = b.1 → a = b) : (o.map Prod.fst).count b.1 = o.count b := by
  induction o with
  | nil => simp
  | cons x o ih =>
    have ih' := ih (fun a ha => h a (List.mem_cons_of_mem _ ha))
    simp only [List.map_cons, List.count_cons, ih']
    by_cases hx : x = b
    · simp [hx]
    · have : x.1 ≠ b.1 := fun hc => hx (h x (List.mem_cons_self _ _) hc)
      simp [hx, this]

/-- The positions output by the traversal from the roots: each position of the index
once. -/
theorem traversal_positions {elems : List Elem} (hF : ForestIndex elems) {o : Output}
    (ho : Traversal (childNodes elems) (rootNodes elems) o) :
    (o.map Prod.fst).Perm (List.range elems.length) := by
  rw [List.perm_iff_count]
  intro j
  by_cases hj : j < elems.length
  · rw [count_eq_one_of_nodup (List.nodup_range _) (List.mem_range.2 hj)]
    have hget : elems[j]? = some elems[j] := List.getElem?_eq_getElem hj
    obtain ⟨k, hk⟩ := hF.forest.reaches_root _ (List.getElem?_mem hget)
    rw [← traversal_count_one hF ho hk j hget]
    refine count_map_fst_eq (b := (j, (k : Int))) ?_
    intro a ha ha1
    obtain ⟨k', hk', e, he, hek⟩ := traversal_depth hF ho a ha
    simp only at ha1
    rw [ha1, hget] at he
    have : elems[j] = e := Option.some.inj he
    subst this
    have := AncestorEdges.depth_unique hF.forest hek hk
    subst this
    exact Prod.ext ha1 hk'
  · have h0 : (List.range elems.length).count j = 0 :=
      List.count_eq_zero_of_not_mem (by rw [List.mem_range]; exact hj)
    rw [h0]
    apply List.count_eq_zero_of_not_mem
    intro hmem
    obtain ⟨a, ha, rfl⟩ := List.mem_map.1 hmem
    obtain ⟨k', _, e, he, _⟩ := traversal_depth hF ho a ha
    exact hj (List.getElem?_eq_some.1 he).1

theorem traversal_length {elems : List Elem} (hF : ForestIndex elems) {o : Output}
    (ho : Traversal (childNodes elems) (rootNodes elems) o) : o.length = elems.length := by
  have := (traversal_positions hF ho).length_eq
  simpa using this

/-! ## Both traversals on the index of a forest -/

theorem run_rec_traversal {elems : List Elem} (hF : ForestIndex elems) :
    ∃ o, Traversal (childNodes elems) (rootNodes elems) o ∧
      ∀ fuel, elems.length + 1 ≤ fuel → run_rec elems fuel [] = some o := by
  obtain ⟨o, _, ho⟩ := print_tree_eq hF (elems.length + 1) 0 (find elems (-1)) []
    (by omega) (by omega) (NodeDepth.root hF)
  refine ⟨o, ho, ?_⟩
  intro fuel hfuel
  obtain ⟨o', hrun, ho'⟩ := print_tree_eq hF fuel 0 (find elems (-1)) []
    (by omega) (by omega) (NodeDepth.root hF)
  rw [ho.output_unique ho']
  simpa [run_rec] using hrun

theorem childNodesRev_perm (elems : List Elem) (a : Nat × Int) :
    (childNodesRev elems a).Perm (childNodes elems a) :=
  List.reverse_perm _

theorem run_stack_traversal {elems : List Elem} (hF : ForestIndex elems) {o : Output}
    (ho : Traversal (childNodes elems) (rootNodes elems) o) :
    ∃ o', Traversal (childNodesRev elems) (rootNodes elems).reverse o' ∧ o'.Perm o ∧
      ∀ fuel, elems.length ≤ fuel → run_stack elems fuel [] = some o' := by
  obtain ⟨o', ho', hperm⟩ := ho.perm_of_perm (childNodesRev_perm elems)
    (rootNodes elems).reverse (List.reverse_perm _)
  refine ⟨o', ho', hperm, ?_⟩
  intro fuel hfuel
  have hlen : o'.length ≤ fuel := by
    rw [hperm.length_eq, traversal_length hF ho]
    exact hfuel
  have hst : push_range (find elems (-1)) 0 [] = (rootNodes elems).reverse := by
    rw [push_range_eq, rootNodes, List.append_nil]
  have := run_stack_loop_eq elems fuel (rootNodes elems).reverse [] o' ho'
    (fun a ha => rootNodes_valid elems a (List.mem_reverse.1 ha)) hlen
  simpa [run_stack, hst] using this

/-- The depth law of an output that is a rearrangement of the traversal from the roots. -/
theorem depth_law {elems : List Elem} (hF : ForestIndex elems) {o o' : Output}
    (ho : Traversal (childNodes elems) (rootNodes elems) o) (hp : o'.Perm o) :
    ∀ a ∈ o', ∃ e, elems[a.1]? = some e ∧
      (∃ k : Nat, a.2 = (k : Int) ∧ AncestorEdges elems e k) ∧
      (e.parentId = -1 → a.2 = 0) ∧
      (e.parentId ≠ -1 →
        (∃ q ∈ o', ∃ p, elems[q.1]? = some p ∧ p.id = e.parentId) ∧
        ∀ q ∈ o', ∀ p, elems[q.1]? = some p → p.id = e.parentId → a.2 = q.2 + 1) := by
  intro a ha
  obtain ⟨k, hk, e, he, hek⟩ := traversal_depth hF ho a (hp.subset ha)
  refine ⟨e, he, ⟨k, hk, hek⟩, ?_, ?_⟩
  · intro hroot
    cases hek with
    | root _ _ => simpa using hk
    | step _ hpm hid _ =>
      have := hF.forest.ids_nonneg _ hpm
      omega
  · intro hne
    cases hek with
    | root _ hr => exact absurd hr hne
    | @step _ p k' _ hpm hid hpk =>
      obtain ⟨ip, hip⟩ := List.mem_iff_getElem?.1 hpm
      constructor
      · have hc := traversal_count_one hF ho hpk ip hip
        have hmem : (ip, (k' : Int)) ∈ o := by
          apply List.count_pos_iff.1
          omega
        exact ⟨(ip, (k' : Int)), hp.symm.subset hmem, p, hip, hid.symm⟩
      · intro q hq p' hp' hid'
        obtain ⟨kq, hkq, e', he', hek'⟩ := traversal_depth hF ho q (hp.subset hq)
        rw [hp'] at he'
        have h1 : p' = e' := Option.some.inj he'
        subst h1
        have h2 : p' = p := hF.forest.id_inj (List.getElem?_mem hp') hpm (by omega)
        subst h2
        have := AncestorEdges.depth_unique hF.forest hek' hpk
        subst this
        rw [hk, hkq]
        push_cast
        rfl

theorem count_positions {elems : List Elem} (hF : ForestIndex elems) {o o' : Output}
    (ho : Traversal (childNodes elems) (rootNodes elems) o) (hp : o'.Perm o) :
    o'.length = elems.length ∧ ∀ i, i < elems.length → (o'.map Prod.fst).count i = 1 := by
  have hperm : (o'.map Prod.fst).Perm (List.range elems.length) :=
    (hp.map _).trans (traversal_positions hF ho)
  refine ⟨by simpa using hperm.length_eq, ?_⟩
  intro i hi
  rw [hperm.count_eq]
  exact count_eq_one_of_nodup (List.nodup_range _) (List.mem_range.2 hi)

theorem forest_exampleInput : Forest exampleInput where
  ids_unique := by decide
  ids_nonneg := by decide
  reaches_root := by
    have h1 : AncestorEdges exampleInput ⟨1, -1, 9, "elem1"⟩ 0 :=
      AncestorEdges.root (by decide) rfl
    intro e he
    simp only [exampleInput, List.mem_cons, List.mem_singleton, List.not_mem_nil,
      or_false] at he
    rcases he with rfl | rfl | rfl | rfl
    · exact ⟨0, AncestorEdges.root (by decide) rfl⟩
    · exact ⟨0, h1⟩
    · exact ⟨0, AncestorEdges.root (by decide) rfl⟩
    · exact ⟨1, AncestorEdges.step (by decide) (by decide) rfl h1⟩

/-! ## The order of the output -/

theorem indexOf_split {l p q : List Nat} {x y : Nat} (hn : l.Nodup) (hl : l = p ++ x :: q)
    (hy : y ∈ q) : l.indexOf x < l.indexOf y ∧ l.indexOf y < l.length := by
  subst hl
  rw [List.nodup_append] at hn
  obtain ⟨_, hxq, hdisj⟩ := hn
  have hxp : x ∉ p := fun h => hdisj h (List.mem_cons_self _ _)
  have hyp : y ∉ p := fun h => hdisj h (List.mem_cons_of_mem _ hy)
  have hxy : x ≠ y := by
    rintro rfl
    exact (List.nodup_cons.1 hxq).1 hy
  have hyq : List.indexOf y q < q.length := List.indexOf_lt_length.2 hy
  rw [List.indexOf_append_of_not_mem hxp, List.indexOf_append_of_not_mem hyp,
    List.indexOf_cons_self, List.indexOf_cons_ne _ hxy]
  simp only [List.length_append, List.length_cons]
  omega

theorem emittedBefore_of_split {out p q : Output} {a b : Nat × Int}
    (hn : (out.map Prod.fst).Nodup) (hl : out = p ++ a :: q) (hb : b ∈ q) :
    EmittedBefore out a.1 b.1 := by
  have h := indexOf_split (l := out.map Prod.fst) (p := p.map Prod.fst)
    (q := q.map Prod.fst) (x := a.1) (y := b.1) hn (by rw [hl]; simp)
    (List.mem_map_of_mem _ hb)
  simpa [EmittedBefore, emitIdx] using h

theorem split_of_lt {l : List Nat} (hs : l.Pairwise (fun x y => x < y)) {a b : Nat}
    (ha : a ∈ l) (hb : b ∈ l) (hab : a < b) : ∃ l1 l2 l3, l = l1 ++ a :: (l2 ++ b :: l3) := by
  obtain ⟨s, t, rfl⟩ := List.append_of_mem ha
  rw [List.pairwise_append] at hs
  rcases List.mem_append.1 hb with hb | hb
  · have := hs.2.2 b hb a (List.mem_cons_self _ _)
    omega
  · rcases List.mem_cons.1 hb with rfl | hb
    · omega
    · obtain ⟨u, v, rfl⟩ := List.append_of_mem hb
      exact ⟨s, u, v, rfl⟩

theorem rangeIdx_split (r : Nat × Nat) {a b : Nat} (ha : a ∈ rangeIdx r) (hb : b ∈ rangeIdx r)
    (hab : a < b) : ∃ l1 l2 l3, rangeIdx r = l1 ++ a :: (l2 ++ b :: l3) :=
  split_of_lt (List.pairwise_lt_range' _ _) ha hb hab

/-- Two children of a visited node: the tree of the earlier child is output before the
later child. -/
theorem Traversal.split_child {α : Type} {kids : α → List α} {l o : List α}
    (h : Traversal kids l o) {c a b : α} (hc : c ∈ o) {l1 l2 l3 : List α}
    (hk : kids c = l1 ++ a :: (l2 ++ b :: l3)) :
    ∃ p oa m s, o = p ++ a :: (oa ++ (m ++ b :: s)) ∧ Traversal kids (kids a) oa := by
  obtain ⟨p0, oc, s0, rfl, hoc⟩ := h.subtree c hc
  rw [hk] at hoc
  obtain ⟨p1, oa, m, s1, rfl, hoa⟩ := hoc.split_two
  exact ⟨p0 ++ c :: p1, oa, m, s1 ++ s0, by simp [List.append_assoc], hoa⟩

theorem isDescendant_lift {elems : List Elem}
    (hs : elems.Pairwise (fun a b => a.parentId ≤ b.parentId)) {i j : Nat}
    (h : IsDescendant elems i j) :
    ∀ d : Int, ∃ d' : Int, Descendant (childNodes elems) (i, d) (j, d') := by
  induction h with
  | child hc =>
    intro d
    obtain ⟨p, c, hp, hc, hid⟩ := hc
    exact ⟨d + 1, Descendant.child ((mem_childNodes_iff hs _ _).2 ⟨p, c, hp, hc, hid, rfl⟩)⟩
  | step hc _ ih =>
    intro d
    obtain ⟨p, c, hp, hc, hid⟩ := hc
    obtain ⟨d', hd'⟩ := ih (d + 1)
    exact ⟨d', Descendant.step ((mem_childNodes_iff hs _ _).2 ⟨p, c, hp, hc, hid, rfl⟩) hd'⟩

theorem traversal_nodup {elems : List Elem} (hF : ForestIndex elems) {o o' : Output}
    (ho : Traversal (childNodes elems) (rootNodes elems) o) (hp : o'.Perm o) :
    (o'.map Prod.fst).Nodup :=
  ((hp.map _).trans (traversal_positions hF ho)).nodup_iff.2 (List.nodup_range _)

theorem traversal_mem_of_valid {elems : List Elem} (hF : ForestIndex elems) {o o' : Output}
    (ho : Traversal (childNodes elems) (rootNodes elems) o) (hp : o'.Perm o) {i : Nat}
    (hi : i < elems.length) : ∃ d : Int, (i, d) ∈ o' := by
  have hmem : i ∈ o'.map Prod.fst :=
    ((hp.map _).trans (traversal_positions hF ho)).symm.subset (List.mem_range.2 hi)
  obtain ⟨a, ha, rfl⟩ := List.mem_map.1 hmem
  exact ⟨a.2, ha⟩

/-- In the output of the recursive traversal a node comes before its descendants. -/
theorem rec_before_descendants {elems : List Elem} (hF : ForestIndex elems) {o : Output}
    (ho : Traversal (childNodes elems) (rootNodes elems) o) {i j : Nat}
    (h : IsDescendant elems i j) : EmittedBefore o i j := by
  have hi : i < elems.length := by
    cases h with
    | child hc =>
      obtain ⟨p, c, hp, _, _⟩ := hc
      exact (List.getElem?_eq_some.1 hp).1
    | step hc _ =>
      obtain ⟨p, c, hp, _, _⟩ := hc
      exact (List.getElem?_eq_some.1 hp).1
  obtain ⟨d, hd⟩ := traversal_mem_of_valid hF ho (List.Perm.refl _) hi
  obtain ⟨d', hdesc⟩ := isDescendant_lift hF.sorted h d
  obtain ⟨p, oa, s, hsplit, hoa⟩ := ho.subtree _ hd
  have hmem := hdesc.mem_traversal oa hoa
  exact emittedBefore_of_split (a := (i, d)) (b := (j, d'))
    (traversal_nodup hF ho (List.Perm.refl _)) hsplit (List.mem_append_left _ hmem)

/-- The two positions `a < b` of one range `find(P)` of the index of a forest, as output
pairs: they stand in this order in the list of the roots or in the children list of a
visited node. -/
theorem siblings_in_list {elems : List Elem} (hF : ForestIndex elems) {o o' : Output}
    (ho : Traversal (childNodes elems) (rootNodes elems) o) (hp : o'.Perm o) {P : Int}
    {a b : Nat} (ha : a ∈ rangeIdx (find elems P)) (hb : b ∈ rangeIdx (find elems P))
    (hab : a < b) :
    ∃ (d : Int) (l1 l2 l3 : List (Nat × Int)),
      rootNodes elems = l1 ++ (a, d) :: (l2 ++ (b, d) :: l3) ∨
      ∃ c ∈ o', childNodes elems c = l1 ++ (a, d) :: (l2 ++ (b, d) :: l3) := by
  obtain ⟨m1, m2, m3, hsplit⟩ := rangeIdx_split _ ha hb hab
  obtain ⟨ea, hea, hpa⟩ := (mem_find_iff_getElem? elems hF.sorted P a).1 ha
  obtain ⟨k, hk⟩ := hF.forest.reaches_root ea (List.getElem?_mem hea)
  cases hk with
  | root _ hr =>
    have hP : P = -1 := by omega
    subst hP
    refine ⟨0, m1.map (fun i => (i, 0)), m2.map (fun i => (i, 0)),
      m3.map (fun i => (i, 0)), Or.inl ?_⟩
    rw [rootNodes, hsplit]
    simp
  | @step _ p k' _ hpm hid hpk =>
    obtain ⟨ip, hip⟩ := List.mem_iff_getElem?.1 hpm
    obtain ⟨d, hd⟩ := traversal_mem_of_valid hF ho hp (List.getElem?_eq_some.1 hip).1
    refine ⟨d + 1, m1.map (fun i => (i, d + 1)), m2.map (fun i => (i, d + 1)),
      m3.map (fun i => (i, d + 1)), Or.inr ⟨(ip, d), hd, ?_⟩⟩
    rw [childNodes_of_some (a := (ip, d)) hip]
    have hPid : p.id = P := by omega
    rw [hPid, hsplit]
    simp

/-- In the output of the recursive traversal, of two siblings the earlier in the range and
its whole subtree come before the later. -/
theorem rec_siblings {elems : List Elem} (hF : ForestIndex elems) {o : Output}
    (ho : Traversal (childNodes elems) (rootNodes elems) o) {P : Int} {a b : Nat}
    (ha : a ∈ rangeIdx (find elems P)) (hb : b ∈ rangeIdx (find elems P)) (hab : a < b) :
    EmittedBefore o a b ∧ ∀ x, IsDescendant elems a x → EmittedBefore o x b := by
  have hn := traversal_nodup hF ho (List.Perm.refl _)
  obtain ⟨d, l1, l2, l3, hcase⟩ := siblings_in_list hF ho (List.Perm.refl _) ha hb hab
  have hsplit : ∃ p oa m s, o = p ++ (a, d) :: (oa ++ (m ++ (b, d) :: s)) ∧
      Traversal (childNodes elems) (childNodes elems (a, d)) oa := by
    rcases hcase with hroot | ⟨c, hc, hkids⟩
    · rw [hroot] at ho
      exact ho.split_two
    · exact ho.split_child hc hkids
  obtain ⟨p, oa, m, s, ho_eq, hoa⟩ := hsplit
  refine ⟨?_, ?_⟩
  · exact emittedBefore_of_split (a := (a, d)) (b := (b, d)) hn ho_eq (by simp)
  · intro x hx
    obtain ⟨d', hdesc⟩ := isDescendant_lift hF.sorted hx d
    have hmem := hdesc.mem_traversal oa hoa
    obtain ⟨u, v, rfl⟩ := List.append_of_mem hmem
    exact emittedBefore_of_split (a := (x, d')) (b := (b, d)) (p := p ++ (a, d) :: u)
      (q := v ++ (m ++ (b, d) :: s)) hn (by rw [ho_eq]; simp [List.append_assoc]) (by simp)

/-- In the output of the iterative traversal, of two siblings the later in the range comes
before the earlier. -/
theorem stack_siblings {elems : List Elem} (hF : ForestIndex elems) {o o' : Output}
    (ho : Traversal (childNodes elems) (rootNodes elems) o)
    (ho' : Traversal (childNodesRev elems) (rootNodes elems).reverse o') (hp : o'.Perm o)
    {P : Int} {a b : Nat}
    (ha : a ∈ rangeIdx (find elems P)) (hb : b ∈ rangeIdx (find elems P)) (hab : a < b) :
    EmittedBefore o' b a := by
  have hn := traversal_nodup hF ho hp
  obtain ⟨d, l1, l2, l3, hcase⟩ := siblings_in_list hF ho hp ha hb hab
  have hsplit : ∃ p ob m s, o' = p ++ (b, d) :: (ob ++ (m ++ (a, d) :: s)) ∧
      Traversal (childNodesRev elems) (childNodesRev elems (b, d)) ob := by
    rcases hcase with hroot | ⟨c, hc, hkids⟩
    · have hrev : (rootNodes elems).reverse =
          l3.reverse ++ (b, d) :: (l2.reverse ++ (a, d) :: l1.reverse) := by
        rw [hroot]; simp [List.append_assoc]
      rw [hrev] at ho'
      exact ho'.split_two
    · have hrev : childNodesRev elems c =
          l3.reverse ++ (b, d) :: (l2.reverse ++ (a, d) :: l1.reverse) := by
        rw [childNodesRev, hkids]; simp [List.append_assoc]
      exact ho'.split_child hc hrev
  obtain ⟨p, ob, m, s, ho_eq, _⟩ := hsplit
  exact emittedBefore_of_split (a := (b, d)) (b := (a, d)) hn ho_eq (by simp)

/-! ## The claims -/

/-- C1: for every input collection that is a forest (unique non-negative ids, every chain of
parent references reaches a root), `run_rec` and `run_stack` both return on the built
index, and the multiset of (node, depth) pairs output by `run_rec` equals the multiset
output by `run_stack`. -/
theorem rec_stack_same_multiset (input : List Elem) (hF : Forest input) :
    ∃ out_rec out_stack : Output,
      (∀ fuel, (build input).length + 1 ≤ fuel →
        run_rec (build input) fuel [] = some out_rec) ∧
      (∀ fuel, (build input).length + 1 ≤ fuel →
        run_stack (build input) fuel [] = some out_stack) ∧
      (out_rec : Multiset (Nat × Int)) = (out_stack : Multiset (Nat × Int)) := by
  have hI := forestIndex_build hF
  obtain ⟨o, ho, hrec⟩ := run_rec_traversal hI
  obtain ⟨o', _, hperm, hstack⟩ := run_stack_traversal hI ho
  exact ⟨o, o', hrec, fun fuel hf => hstack fuel (by omega), Multiset.coe_eq_coe.2 hperm.symm⟩

/-- Witness of C1 on the example scenario. -/
theorem rec_stack_same_multiset_witness :
    Forest exampleInput ∧
    ∃ out_rec out_stack : Output,
      (∀ fuel, (build exampleInput).length + 1 ≤ fuel →
        run_rec (build exampleInput) fuel [] = some out_rec) ∧
      (∀ fuel, (build exampleInput).length + 1 ≤ fuel →
        run_stack (build exampleInput) fuel [] = some out_stack) ∧
      (out_rec : Multiset (Nat × Int)) = (out_stack : Multiset (Nat × Int)) :=
  ⟨forest_exampleInput, rec_stack_same_multiset exampleInput forest_exampleInput⟩

theorem build_exampleInput :
    build exampleInput =
      [⟨2, -1, 5, "elem2"⟩, ⟨0, -1, 5, "elem0"⟩, ⟨1, -1, 9, "elem1"⟩, ⟨3, 1, 1, "elem3"⟩] := by
  decide

/-- C2: on the index built from any input, `find(P)` is a contiguous range
(`first ≤ last ≤ size`) that holds exactly the positions whose element has `parentId = P`;
so the ranges of two different parent ids share no position, and the range is empty when no
record has `parentId = P`. -/
theorem find_exact_children (input : List Elem) (P : Int) :
    (find (build input) P).1 ≤ (find (build input) P).2 ∧
    (find (build input) P).2 ≤ (build input).length ∧
    (∀ i e, (build input)[i]? = some e →
      (((find (build input) P).1 ≤ i ∧ i < (find (build input) P).2) ↔ e.parentId = P)) ∧
    (∀ Q : Int, Q ≠ P → ∀ i,
      ¬ (((find (build input) P).1 ≤ i ∧ i < (find (build input) P).2) ∧
         ((find (build input) Q).1 ≤ i ∧ i < (find (build input) Q).2))) ∧
    ((∀ e ∈ input, e.parentId ≠ P) → (find (build input) P).1 = (find (build input) P).2) := by
  have hs := build_parentId_sorted input
  have hb := find_bounds (build input) P
  have key : ∀ (R : Int) (i : Nat) (e : Elem), (build input)[i]? = some e →
      (((find (build input) R).1 ≤ i ∧ i < (find (build input) R).2) ↔ e.parentId = R) := by
    intro R i e he
    obtain ⟨hi, rfl⟩ := List.getElem?_eq_some.1 he
    exact mem_find_iff (build input) hs R i hi
  refine ⟨hb.1, hb.2, key P, ?_, ?_⟩
  · intro Q hQ i hi
    have hlt : i < (build input).length := by omega
    have h1 := (key P i _ (List.getElem?_eq_getElem hlt)).1 hi.1
    have h2 := (key Q i _ (List.getElem?_eq_getElem hlt)).1 hi.2
    exact hQ (h2.symm.trans h1)
  · intro hno
    by_contra hne
    have hlt : (find (build input) P).1 < (build input).length := by omega
    have hget := List.getElem?_eq_getElem hlt
    have h1 := (key P _ _ hget).1 ⟨Nat.le_refl _, by omega⟩
    exact hno _ ((build_perm input).subset (List.getElem?_mem hget)) h1

/-- Witness of C2: in the example scenario no record has parent id 7 and the range of 7 is
empty. -/
theorem find_exact_children_witness :
    (∀ e ∈ exampleInput, e.parentId ≠ 7) ∧
    (find (build exampleInput) 7).1 = (find (build exampleInput) 7).2 :=
  ⟨by decide, (find_exact_children exampleInput 7).2.2.2.2 (by decide)⟩

/-- C3: for every input collection that is a forest, each of `run_rec` and `run_stack`
returns an output whose length is the number of nodes of the index and in which every
position of the index occurs exactly once. -/
theorem traversal_visits_each_once (input : List Elem) (hF : Forest input) :
    ∃ out_rec out_stack : Output,
      (∀ fuel, (build input).length + 1 ≤ fuel →
        run_rec (build input) fuel [] = some out_rec) ∧
      (∀ fuel, (build input).length + 1 ≤ fuel →
        run_stack (build input) fuel [] = some out_stack) ∧
      out_rec.length = (build input).length ∧
      out_stack.length = (build input).length ∧
      (∀ i, i < (build input).length → (out_rec.map Prod.fst).count i = 1) ∧
      (∀ i, i < (build input).length → (out_stack.map Prod.fst).count i = 1) := by
  have hI := forestIndex_build hF
  obtain ⟨o, ho, hrec⟩ := run_rec_traversal hI
  obtain ⟨o', _, hperm, hstack⟩ := run_stack_traversal hI ho
  have h1 := count_positions hI ho (List.Perm.refl o)
  have h2 := count_positions hI ho hperm
  exact ⟨o, o', hrec, fun fuel hf => hstack fuel (by omega), h1.1, h2.1, h1.2, h2.2⟩

/-- Witness of C3 on the example scenario. -/
theorem traversal_visits_each_once_witness :
    Forest exampleInput ∧
    ∃ out_rec out_stack : Output,
      (∀ fuel, (build exampleInput).length + 1 ≤ fuel →
        run_rec (build exampleInput) fuel [] = some out_rec) ∧
      (∀ fuel, (build exampleInput).length + 1 ≤ fuel →
        run_stack (build exampleInput) fuel [] = some out_stack) ∧
      out_rec.length = (build exampleInput).length ∧
      out_stack.length = (build exampleInput).length ∧
      (∀ i, i < (build exampleInput).length → (out_rec.map Prod.fst).count i = 1) ∧
      (∀ i, i < (build exampleInput).length → (out_stack.map Prod.fst).count i = 1) :=
  ⟨forest_exampleInput, traversal_visits_each_once exampleInput forest_exampleInput⟩

/-- C4, as stated, fails: the index built from the example scenario is not ordered by the
composite key (parentId ascending, weight descending, id ascending); its first two
elements have equal parent and weight and ids 2 then 0, its next has a greater weight. -/
theorem index_order_counterexample :
    ¬ (build exampleInput).Pairwise (fun a b =>
      a.parentId < b.parentId ∨
        (a.parentId = b.parentId ∧
          (a.weight > b.weight ∨ (a.weight = b.weight ∧ a.id < b.id)))) := by
  rw [build_exampleInput]
  decide

/-- C4, amended: the index built from any input is ordered by the composite key (parentId
ascending, then weight ascending, then id descending); hence within the range `find(P)` of
a parent `P` an earlier node has a smaller weight than a later one, or the same weight and
an id that is not smaller; and when the ids of the input are unique the id is greater. -/
theorem index_order (input : List Elem) :
    (build input).Pairwise (fun a b =>
      a.parentId < b.parentId ∨
        (a.parentId = b.parentId ∧
          (a.weight < b.weight ∨ (a.weight = b.weight ∧ b.id ≤ a.id)))) ∧
    (∀ (P : Int) (i j : Nat) (a b : Elem),
      (find (build input) P).1 ≤ i → i < j → j < (find (build input) P).2 →
      (build input)[i]? = some a → (build input)[j]? = some b →
      (a.weight < b.weight ∨ (a.weight = b.weight ∧ b.id ≤ a.id)) ∧
      ((input.map (fun e => e.id)).Nodup →
        (a.weight < b.weight ∨ (a.weight = b.weight ∧ b.id < a.id)))) := by
  have hsorted : (build input).Pairwise (fun a b =>
      a.parentId < b.parentId ∨
        (a.parentId = b.parentId ∧
          (a.weight < b.weight ∨ (a.weight = b.weight ∧ b.id ≤ a.id)))) :=
    (build_sorted input).imp (fun h => (CompareWeight_eq_false_iff _ _).1 h)
  refine ⟨hsorted, ?_⟩
  intro P i j a b hi hij hj ha hb
  obtain ⟨hi', rfl⟩ := List.getElem?_eq_some.1 ha
  obtain ⟨hj', rfl⟩ := List.getElem?_eq_some.1 hb
  have hs := build_parentId_sorted input
  have hpa := (mem_find_iff (build input) hs P i hi').1 ⟨hi, by omega⟩
  have hpb := (mem_find_iff (build input) hs P j hj').1 ⟨by omega, hj⟩
  have hord := (List.pairwise_iff_getElem.1 hsorted) i j hi' hj' hij
  have hw : (build input)[i].weight < (build input)[j].weight ∨
      ((build input)[i].weight = (build input)[j].weight ∧
        (build input)[j].id ≤ (build input)[i].id) := by
    omega
  refine ⟨hw, ?_⟩
  intro hnodup
  have hnd : ((build input).map (fun e => e.id)).Nodup :=
    ((build_perm input).map _).nodup_iff.2 hnodup
  have hne : (build input)[i].id ≠ (build input)[j].id := by
    intro hc
    have hi2 : i < ((build input).map (fun e => e.id)).length := by simpa using hi'
    have hj2 : j < ((build input).map (fun e => e.id)).length := by simpa using hj'
    have hc2 : ((build input).map (fun e => e.id))[i] = ((build input).map (fun e => e.id))[j] := by
      simpa using hc
    have h1 := (List.Nodup.getElem_inj_iff hnd).1 hc2
    omega
  omega

/-- Witness of C4 (amended) on the example scenario: positions 0 and 1 of the range of the
roots. -/
theorem index_order_witness :
    (exampleInput.map (fun e => e.id)).Nodup ∧
    ((5 : Int) < 5 ∨ ((5 : Int) = 5 ∧ (0 : Int) < 2)) :=
  ⟨by decide,
    ((index_order exampleInput).2 (-1) 0 1 ⟨2, -1, 5, "elem2"⟩ ⟨0, -1, 5, "elem0"⟩
      (by decide) (by decide) (by decide) (by decide) (by decide)).2 (by decide)⟩

/-- C5: for every input collection that is a forest, `run_rec` outputs in pre-order: every
node is output before each of its descendants, and of two siblings `a`, `b` of one range
`find(P)` with `a` before `b` in the range, `a` and the whole subtree of `a` are output
before `b`. -/
theorem rec_is_preorder (input : List Elem) (hF : Forest input) :
    ∃ out : Output,
      (∀ fuel, (build input).length + 1 ≤ fuel → run_rec (build input) fuel [] = some out) ∧
      (∀ i j, IsDescendant (build input) i j → EmittedBefore out i j) ∧
      (∀ (P : Int) (a b : Nat), a ∈ rangeIdx (find (build input) P) →
        b ∈ rangeIdx (find (build input) P) → a < b →
        EmittedBefore out a b ∧
        ∀ x, IsDescendant (build input) a x → EmittedBefore out x b) := by
  have hI := forestIndex_build hF
  obtain ⟨o, ho, hrec⟩ := run_rec_traversal hI
  exact ⟨o, hrec, fun i j h => rec_before_descendants hI ho h,
    fun P a b ha hb hab => rec_siblings hI ho ha hb hab⟩

/-- Witness of C5 on the example scenario. -/
theorem rec_is_preorder_witness :
    Forest exampleInput ∧
    ∃ out : Output,
      (∀ fuel, (build exampleInput).length + 1 ≤ fuel →
        run_rec (build exampleInput) fuel [] = some out) ∧
      (∀ i j, IsDescendant (build exampleInput) i j → EmittedBefore out i j) ∧
      (∀ (P : Int) (a b : Nat), a ∈ rangeIdx (find (build exampleInput) P) →
        b ∈ rangeIdx (find (build exampleInput) P) → a < b →
        EmittedBefore out a b ∧
        ∀ x, IsDescendant (build exampleInput) a x → EmittedBefore out x b) :=
  ⟨forest_exampleInput, rec_is_preorder exampleInput forest_exampleInput⟩

/-- C6: for every input collection that is a forest, every pair (node, d) output by
`run_rec` or by `run_stack` has `d` equal to the number of ancestor edges of the node:
`d = 0` when the node is a root, and otherwise the node named by `parentId` is output, and
`d` is one more than the depth of every output pair of that node. -/
theorem depth_is_ancestor_edges (input : List Elem) (hF : Forest input) :
    ∃ out_rec out_stack : Output,
      (∀ fuel, (build input).length + 1 ≤ fuel →
        run_rec (build input) fuel [] = some out_rec) ∧
      (∀ fuel, (build input).length + 1 ≤ fuel →
        run_stack (build input) fuel [] = some out_stack) ∧
      ∀ out : Output, out = out_rec ∨ out = out_stack →
        ∀ a ∈ out, ∃ e, (build input)[a.1]? = some e ∧
          (∃ k : Nat, a.2 = (k : Int) ∧ AncestorEdges (build input) e k) ∧
          (e.parentId = -1 → a.2 = 0) ∧
          (e.parentId ≠ -1 →
            (∃ q ∈ out, ∃ p, (build input)[q.1]? = some p ∧ p.id = e.parentId) ∧
            ∀ q ∈ out, ∀ p, (build input)[q.1]? = some p → p.id = e.parentId →
              a.2 = q.2 + 1) := by
  have hI := forestIndex_build hF
  obtain ⟨o, ho, hrec⟩ := run_rec_traversal hI
  obtain ⟨o', _, hperm, hstack⟩ := run_stack_traversal hI ho
  refine ⟨o, o', hrec, fun fuel hf => hstack fuel (by omega), ?_⟩
  rintro out (rfl | rfl)
  · exact depth_law hI ho (List.Perm.refl _)
  · exact depth_law hI ho hperm

/-- Witness of C6 on the example scenario. -/
theorem depth_is_ancestor_edges_witness :
    Forest exampleInput ∧
    ∃ out_rec out_stack : Output,
      (∀ fuel, (build exampleInput).length + 1 ≤ fuel →
        run_rec (build exampleInput) fuel [] = some out_rec) ∧
      (∀ fuel, (build exampleInput).length + 1 ≤ fuel →
        run_stack (build exampleInput) fuel [] = some out_stack) ∧
      ∀ out : Output, out = out_rec ∨ out = out_stack →
        ∀ a ∈ out, ∃ e, (build exampleInput)[a.1]? = some e ∧
          (∃ k : Nat, a.2 = (k : Int) ∧ AncestorEdges (build exampleInput) e k) ∧
          (e.parentId = -1 → a.2 = 0) ∧
          (e.parentId ≠ -1 →
            (∃ q ∈ out, ∃ p, (build exampleInput)[q.1]? = some p ∧ p.id = e.parentId) ∧
            ∀ q ∈ out, ∀ p, (build exampleInput)[q.1]? = some p → p.id = e.parentId →
              a.2 = q.2 + 1) :=
  ⟨forest_exampleInput, depth_is_ancestor_edges exampleInput forest_exampleInput⟩

/-- C7: for every input collection that is a forest and any two siblings `a`, `b` of one
range `find(P)` (two roots when `P = -1`) with `a` before `b` in the range, `run_stack`
outputs `b` before `a`, whereas `run_rec` outputs `a` before `b`. -/
theorem stack_reverses_siblings (input : List Elem) (hF : Forest input) :
    ∃ out_rec out_stack : Output,
      (∀ fuel, (build input).length + 1 ≤ fuel →
        run_rec (build input) fuel [] = some out_rec) ∧
      (∀ fuel, (build input).length + 1 ≤ fuel →
        run_stack (build input) fuel [] = some out_stack) ∧
      (∀ (P : Int) (a b : Nat), a ∈ rangeIdx (find (build input) P) →
        b ∈ rangeIdx (find (build input) P) → a < b →
        EmittedBefore out_stack b a ∧ EmittedBefore out_rec a b) := by
  have hI := forestIndex_build hF
  obtain ⟨o, ho, hrec⟩ := run_rec_traversal hI
  obtain ⟨o', ho', hperm, hstack⟩ := run_stack_traversal hI ho
  exact ⟨o, o', hrec, fun fuel hf => hstack fuel (by omega),
    fun P a b ha hb hab =>
      ⟨stack_siblings hI ho ho' hperm ha hb hab, (rec_siblings hI ho ha hb hab).1⟩⟩

/-- Witness of C7 on the example scenario. -/
theorem stack_reverses_siblings_witness :
    Forest exampleInput ∧
    ∃ out_rec out_stack : Output,
      (∀ fuel, (build exampleInput).length + 1 ≤ fuel →
        run_rec (build exampleInput) fuel [] = some out_rec) ∧
      (∀ fuel, (build exampleInput).length + 1 ≤ fuel →
        run_stack (build exampleInput) fuel [] = some out_stack) ∧
      (∀ (P : Int) (a b : Nat), a ∈ rangeIdx (find (build exampleInput) P) →
        b ∈ rangeIdx (find (build exampleInput) P) → a < b →
        EmittedBefore out_stack b a ∧ EmittedBefore out_rec a b) :=
  ⟨forest_exampleInput, stack_reverses_siblings exampleInput forest_exampleInput⟩

/-- C8, as stated, fails: on the four records of the example scenario the range `find(-1)`
does not list the ids 1, 0, 2, and `run_rec` does not output (1,0),(3,1),(0,0),(2,0). -/
theorem example_scenario_counterexample :
    rangeIds (build exampleInput) (find (build exampleInput) (-1)) ≠ [1, 0, 2] ∧
    (run_rec (build exampleInput) 5 []).map (idDepth (build exampleInput)) ≠
      some [(1, 0), (3, 1), (0, 0), (2, 0)] := by
  decide

/-- C8, amended: on the four records of the example scenario the range `find(-1)` lists
the ids 2, 0, 1 (weight 5 with the greater id first, then weight 9), and `run_rec`, with
any recursion budget of at least 5 frames, outputs (2,0),(0,0),(1,0),(3,1). -/
theorem example_scenario :
    rangeIds (build exampleInput) (find (build exampleInput) (-1)) = [2, 0, 1] ∧
    ∀ fuel, (run_rec (build exampleInput) (fuel + 5) []).map (idDepth (build exampleInput)) =
      some [(2, 0), (0, 0), (1, 0), (3, 1)] := by
  refine ⟨by decide, ?_⟩
  intro fuel
  obtain ⟨o, _, hrec⟩ := run_rec_traversal (forestIndex_build forest_exampleInput)
  have h5 := hrec 5 (by decide)
  rw [hrec (fuel + 5) (by rw [build_length]; simp [exampleInput]), ← h5]
  decide

/-- C9: for the empty input the index has size 0, `find(-1)` is the empty range, and both
traversals return the empty output (for `run_rec` with room for at least one call, for
`run_stack` with any bound on the iterations). -/
theorem empty_input :
    (build []).length = 0 ∧
    (find (build []) (-1)).1 = (find (build []) (-1)).2 ∧
    rangeIdx (find (build []) (-1)) = [] ∧
    (∀ fuel, run_rec (build []) (fuel + 1) [] = some []) ∧
    (∀ fuel, run_stack (build []) fuel [] = some []) := by
  refine ⟨rfl, rfl, rfl, ?_, ?_⟩
  · intro fuel
    rfl
  · intro fuel
    cases fuel <;> rfl

/-! ## The index as a rearrangement of the input -/

/-- C16: for every input collection, the index obtained by pushing all records into the
priority queue and popping until it is empty is a permutation of the input: the same size
and the same multiset of records. -/
theorem index_is_permutation (input : List Elem) :
    (build input).Perm input ∧
    (build input).length = input.length ∧
    ((build input : List Elem) : Multiset Elem) = ((input : List Elem) : Multiset Elem) ∧
    (∀ e : Elem, (build input).count e = input.count e) :=
  ⟨build_perm input, build_length input, Multiset.coe_eq_coe.2 (build_perm input),
    fun e => (build_perm input).count_eq e⟩

/-- C17: for every input collection with unique ids, every element of the drained index is
the greatest under `CompareWeight` of the elements from its position on (the comparator puts
every later element strictly below it); in field terms two consecutive elements `a`, `b`
have `a.parentId < b.parentId`, or the same parent and `a.weight < b.weight`, or the same
parent and weight and `a.id > b.id`. -/
theorem drain_yields_greatest_first (input : List Elem)
    (hid : (input.map (fun e => e.id)).Nodup) :
    (build input).Pairwise (fun a b => CompareWeight a b = false ∧ CompareWeight b a = true) ∧
    (∀ (i : Nat) (a b : Elem), (build input)[i]? = some a → (build input)[i + 1]? = some b →
      (a.parentId < b.parentId ∨
        (a.parentId = b.parentId ∧ a.weight < b.weight) ∨
        (a.parentId = b.parentId ∧ a.weight = b.weight ∧ a.id > b.id))) := by
  have hnd : ((build input).map (fun e => e.id)).Nodup :=
    ((build_perm input).map _).nodup_iff.2 hid
  have hpair : (build input).Pairwise (fun a b =>
      CompareWeight a b = false ∧ a.id ≠ b.id) := by
    have h1 := build_sorted input
    have h2 : (build input).Pairwise (fun a b => a.id ≠ b.id) :=
      (List.pairwise_map (f := fun e : Elem => e.id)).1 hnd
    exact h1.and h2
  have hstrict : (build input).Pairwise (fun a b =>
      CompareWeight a b = false ∧ CompareWeight b a = true) := by
    refine hpair.imp ?_
    rintro a b ⟨hab, hne⟩
    refine ⟨hab, ?_⟩
    rw [← Bool.not_eq_false, CompareWeight_eq_false_iff]
    rw [CompareWeight_eq_false_iff] at hab
    omega
  refine ⟨hstrict, ?_⟩
  intro i a b ha hb
  obtain ⟨hi, rfl⟩ := List.getElem?_eq_some.1 ha
  obtain ⟨hj, rfl⟩ := List.getElem?_eq_some.1 hb
  have h := (List.pairwise_iff_getElem.1 hpair) i (i + 1) hi hj (by omega)
  rw [CompareWeight_eq_false_iff] at h
  omega

/-- Witness of C17 on the example scenario. -/
theorem drain_yields_greatest_first_witness :
    (exampleInput.map (fun e => e.id)).Nodup ∧
    (build exampleInput).Pairwise
      (fun a b => CompareWeight a b = false ∧ CompareWeight b a = true) :=
  ⟨by decide, (drain_yields_greatest_first exampleInput (by decide)).1⟩

/-! ## The generator -/

theorem genRoots_fst (distr : Int → Int) (n : Nat) (id : Int) (q : List Elem) :
    (genRoots distr n id q).1 = id + n := by
  induction n generalizing id q with
  | zero => simp [genRoots]
  | succ n ih =>
    rw [genRoots, ih]
    push_cast
    ring

theorem genChildren_subset (distr1 : Int → Int → Int → Int) (distr : Int → Int)
    (min_id max_id : Int) (c : Nat) (id : Int) (q : List Elem) :
    ∀ e ∈ q, e ∈ (genChildren distr1 distr min_id max_id c id q).2 := by
  induction c generalizing id q with
  | zero => intro e he; simpa [genChildren] using he
  | succ c ih =>
    intro e he
    rw [genChildren]
    exact ih _ _ e (List.mem_append_left _ he)

theorem genChildren_first (distr1 : Int → Int → Int → Int) (distr : Int → Int)
    (min_id max_id : Int) (c : Nat) (id : Int) (q : List Elem) :
    (⟨id, distr1 min_id max_id id, distr id, "elem" ++ toString id⟩ : Elem) ∈
      (genChildren distr1 distr min_id max_id (c + 1) id q).2 := by
  rw [genChildren]
  exact genChildren_subset _ _ _ _ _ _ _ _ (List.mem_append_right _ (List.mem_singleton.2 rfl))

theorem genLayers_subset (distr1 : Int → Int → Int → Int) (distr : Int → Int) (C : Nat)
    (depth : Nat) (min_id max_id id : Int) (q : List Elem) :
    ∀ e ∈ q, e ∈ genLayers distr1 distr C depth min_id max_id id q := by
  induction depth generalizing min_id max_id id q with
  | zero => intro e he; simpa [genLayers] using he
  | succ d ih =>
    intro e he
    rw [genLayers]
    exact ih _ _ _ _ e (genChildren_subset _ _ _ _ _ _ _ e he)

/-- The first node of the first layer gets the id `num_root_nodes` and the parent id that
`distr1(0, num_root_nodes)` returns. -/
theorem generate_first_child (N C D : Nat) (distr1 : Int → Int → Int → Int)
    (distr : Int → Int) :
    (⟨(N : Int), distr1 0 N N, distr N, "elem" ++ toString (N : Int)⟩ : Elem) ∈
      generate N (C + 1) (D + 1) distr1 distr := by
  unfold generate
  simp only [genRoots_fst, zero_add]
  rw [genLayers]
  exact genLayers_subset _ _ _ _ _ _ _ _ _ (genChildren_first _ _ _ _ _ _ _)

theorem self_parent_not_forest {nodes : List Elem} {e : Elem} (he : e ∈ nodes)
    (hself : e.parentId = e.id) : ¬ Forest nodes := by
  intro hF
  have hno : ∀ k, ¬ AncestorEdges nodes e k := by
    intro k
    induction k with
    | zero =>
      intro h
      cases h with
      | root _ hr =>
        have := hF.ids_nonneg e he
        omega
    | succ k ih =>
      intro h
      cases h with
      | @step _ p _ _ hpm hid hp =>
        have hpe : p = e := hF.id_inj hpm he (by omega)
        rw [hpe] at hp
        exact ih hp
  obtain ⟨k, hk⟩ := hF.reaches_root e he
  exact hno k hk

/-- C12 fails on the code: `distr1(min_id, max_id)` draws from the closed interval, and
`max_id` is the id of the next node to be created.  With the constants of the program
and the draws that return the upper bound, the node with id 10000000 (the first node of the
first layer) is created with `parentId = 10000000`: its own id, not the id of a root, and
not smaller than its id; so the generated collection is not a forest. -/
theorem generator_self_parent :
    (∀ lo hi i : Int, lo ≤ hi → lo ≤ drawUpper lo hi i ∧ drawUpper lo hi i ≤ hi) ∧
    (∃ e ∈ generate 10000000 10000000 9 drawUpper (fun _ => 0),
      e.id = 10000000 ∧ e.parentId = 10000000 ∧ ¬ e.parentId < e.id) ∧
    ¬ Forest (generate 10000000 10000000 9 drawUpper (fun _ => 0)) := by
  have hmem := generate_first_child 10000000 9999999 8 drawUpper (fun _ => 0)
  refine ⟨fun lo hi i h => ⟨h, le_refl _⟩, ⟨_, hmem, rfl, rfl, ?_⟩, ?_⟩
  · show ¬ ((10000000 : Nat) : Int) < ((10000000 : Nat) : Int)
    exact lt_irrefl _
  · exact self_parent_not_forest hmem rfl

/-! ## Indexes with unique ids whose parent references need not form a forest -/

theorem Forest.uniqueIds {nodes : List Elem} (h : Forest nodes) : UniqueIds nodes :=
  ⟨h.ids_unique, h.ids_nonneg⟩

theorem UniqueIds.of_input_perm {nodes nodes' : List Elem} (hp : nodes.Perm nodes')
    (h : UniqueIds nodes) : UniqueIds nodes' :=
  ⟨(hp.map _).nodup_iff.1 h.ids_unique, fun e he => h.ids_nonneg e (hp.symm.subset he)⟩

theorem UniqueIds.elem_inj {nodes : List Elem} (h : UniqueIds nodes) {e e' : Elem}
    (he : e ∈ nodes) (he' : e' ∈ nodes) (hid : e.id = e'.id) : e = e' :=
  List.inj_on_of_nodup_map h.ids_unique he he' hid

theorem UniqueIds.position_inj {elems : List Elem} (hU : UniqueIds elems) {i j : Nat}
    {e : Elem} (hi : elems[i]? = some e) (hj : elems[j]? = some e) : i = j := by
  obtain ⟨hi', rfl⟩ := List.getElem?_eq_some.1 hi
  obtain ⟨hj', hje⟩ := List.getElem?_eq_some.1 hj
  exact ((List.Nodup.of_map _ hU.ids_unique).getElem_inj_iff).1 hje.symm

/-- The records that reach a root form a forest, with the same parent chains. -/
theorem UniqueIds.reachable_forest {nodes : List Elem} (hU : UniqueIds nodes) :
    ∃ nodes' : List Elem, nodes'.Sublist nodes ∧ Forest nodes' ∧
      ∀ e k, AncestorEdges nodes e k → AncestorEdges nodes' e k := by
  classical
  let reach : Elem → Bool := fun e => decide (∃ k, AncestorEdges nodes e k)
  have hsub : (nodes.filter reach).Sublist nodes := List.filter_sublist _
  have hmem : ∀ e k, AncestorEdges nodes e k → e ∈ nodes.filter reach := by
    intro e k h
    exact List.mem_filter.2 ⟨h.mem, by simpa [reach] using ⟨k, h⟩⟩
  have hchain : ∀ e k, AncestorEdges nodes e k → AncestorEdges (nodes.filter reach) e k := by
    intro e k h
    induction h with
    | root he hr => exact AncestorEdges.root (hmem _ 0 (AncestorEdges.root he hr)) hr
    | @step e p k he hpm hid hp ih =>
      exact AncestorEdges.step (hmem _ (k + 1) (AncestorEdges.step he hpm hid hp))
        (hmem _ k hp) hid ih
  refine ⟨nodes.filter reach, hsub, ⟨?_, ?_, ?_⟩, hchain⟩
  · exact hU.ids_unique.sublist (hsub.map _)
  · intro e he
    exact hU.ids_nonneg e (hsub.subset he)
  · intro e he
    have := (List.mem_filter.1 he).2
    obtain ⟨k, hk⟩ : ∃ k, AncestorEdges nodes e k := by simpa [reach] using this
    exact ⟨k, hchain e k hk⟩

theorem UniqueIds.edges_unique {nodes : List Elem} (hU : UniqueIds nodes) {e : Elem}
    {k k' : Nat} (h : AncestorEdges nodes e k) (h' : AncestorEdges nodes e k') : k = k' := by
  obtain ⟨nodes', _, hF, hchain⟩ := hU.reachable_forest
  exact AncestorEdges.depth_unique hF (hchain e k h) (hchain e k' h')

theorem UniqueIds.edges_lt_length {nodes : List Elem} (hU : UniqueIds nodes) {e : Elem}
    {k : Nat} (h : AncestorEdges nodes e k) : k < nodes.length := by
  obtain ⟨nodes', hsub, hF, hchain⟩ := hU.reachable_forest
  have h1 := AncestorEdges.lt_length hF (hchain e k h)
  have h2 := hsub.length_le
  omega

theorem nodeDepth_child_of_sorted {elems : List Elem}
    (hs : elems.Pairwise (fun a b => a.parentId ≤ b.parentId)) {k : Nat} {e : Elem}
    (hk : AncestorEdges elems e k) :
    ∀ j ∈ rangeIdx (find elems e.id), NodeDepth elems j (k + 1) := by
  intro j hj
  obtain ⟨c, hc, hcp⟩ := (mem_find_iff_getElem? elems hs e.id j).1 hj
  exact ⟨c, hc, AncestorEdges.step (List.getElem?_mem hc) hk.mem hcp hk⟩

theorem nodeDepth_root_of_sorted {elems : List Elem}
    (hs : elems.Pairwise (fun a b => a.parentId ≤ b.parentId)) :
    ∀ j ∈ rangeIdx (find elems (-1)), NodeDepth elems j 0 := by
  intro j hj
  obtain ⟨c, hc, hcp⟩ := (mem_find_iff_getElem? elems hs (-1) j).1 hj
  exact ⟨c, hc, AncestorEdges.root (List.getElem?_mem hc) hcp⟩

/-- With unique non-negative ids `print_tree` succeeds on a sorted index as soon as the
recursion budget covers the levels below the current one, whether or not every record
reaches a root. -/
theorem print_tree_eq_of_uniqueIds {elems : List Elem} (hU : UniqueIds elems)
    (hs : elems.Pairwise (fun a b => a.parentId ≤ b.parentId)) :
    ∀ (fuel k : Nat) (r : Nat × Nat) (out : Output),
      1 ≤ fuel → elems.length + 1 ≤ fuel + k →
      (∀ i ∈ rangeIdx r, NodeDepth elems i k) →
      ∃ o, print_tree elems fuel r (k : Int) out = some (out ++ o) ∧
        Traversal (childNodes elems) ((rangeIdx r).map (fun i => (i, (k : Int)))) o := by
  intro fuel
  induction fuel with
  | zero => intro k r out h1; omega
  | succ f ih =>
    intro k r out _ hfk hr
    rw [print_tree]
    generalize rangeIdx r = l at hr
    induction l generalizing out with
    | nil => exact ⟨[], by simp, Traversal.nil⟩
    | cons i l ihl =>
      obtain ⟨e, he, hek⟩ := hr i (List.mem_cons_self _ _)
      have hklt := hU.edges_lt_length hek
      obtain ⟨o1, ho1, ht1⟩ := ih (k + 1) (find elems e.id) (out ++ [(i, (k : Int))])
        (by omega) (by omega) (nodeDepth_child_of_sorted hs hek)
      obtain ⟨o2, ho2, ht2⟩ := ihl (out ++ [(i, (k : Int))] ++ o1)
        (fun j hj => hr j (List.mem_cons_of_mem _ hj))
      have hcast : ((k + 1 : Nat) : Int) = (k : Int) + 1 := by push_cast; rfl
      rw [hcast] at ho1 ht1
      refine ⟨(i, (k : Int)) :: (o1 ++ o2), ?_, ?_⟩
      · rw [List.foldlM_cons]
        simp only [he]
        rw [ho1]
        simp only [Option.bind_eq_bind, Option.some_bind]
        rw [ho2]
        simp [List.append_assoc]
      · rw [List.map_cons]
        refine Traversal.cons ?_ ht2
        rw [childNodes_of_some (a := (i, (k : Int))) he]
        exact ht1

theorem traversal_depth_of_sorted {elems : List Elem}
    (hs : elems.Pairwise (fun a b => a.parentId ≤ b.parentId)) {o : Output}
    (ho : Traversal (childNodes elems) (rootNodes elems) o) :
    ∀ a ∈ o, ∃ k : Nat, a.2 = (k : Int) ∧ NodeDepth elems a.1 k := by
  refine ho.forall_of_closed (fun a => ∃ k : Nat, a.2 = (k : Int) ∧ NodeDepth elems a.1 k) ?_ ?_
  · rintro a ⟨k, hk, e, he, hek⟩ b hb
    obtain ⟨el, c, hel, hc, hcp, hd⟩ := (mem_childNodes_iff hs _ _).1 hb
    have : el = e := by rw [he] at hel; exact (Option.some.inj hel).symm
    subst this
    refine ⟨k + 1, by rw [hd, hk]; push_cast; rfl, c, hc, ?_⟩
    exact AncestorEdges.step (List.getElem?_mem hc) hek.mem hcp hek
  · intro a ha
    obtain ⟨c, hc, hcp, hd⟩ := (mem_rootNodes_iff hs _).1 ha
    exact ⟨0, by simpa using hd, c, hc, AncestorEdges.root (List.getElem?_mem hc) hcp⟩

/-- In the traversal from the roots of a sorted index with unique non-negative ids, the pair
of a position and the number of ancestor edges of its record occurs exactly once. -/
theorem traversal_count_one_of_uniqueIds {elems : List Elem} (hU : UniqueIds elems)
    (hs : elems.Pairwise (fun a b => a.parentId ≤ b.parentId)) {o : Output}
    (ho : Traversal (childNodes elems) (rootNodes elems) o) {e : Elem} {k : Nat}
    (h : AncestorEdges elems e k) :
    ∀ j, elems[j]? = some e → o.count (j, (k : Int)) = 1 := by
  induction h with
  | @root e he hr =>
    intro j hj
    rw [ho.count_eq]
    have h1 : (rootNodes elems).count (j, ((0 : Nat) : Int)) = 1 :=
      count_eq_one_of_nodup (rootNodes_nodup elems)
        ((mem_rootNodes_iff hs _).2 ⟨e, hj, hr, by simp⟩)
    have h2 : (o.map (fun a => (childNodes elems a).count (j, ((0 : Nat) : Int)))).sum = 0 := by
      apply List.sum_eq_zero
      intro x hx
      obtain ⟨a, _, rfl⟩ := List.mem_map.1 hx
      apply List.count_eq_zero_of_not_mem
      intro hmem
      obtain ⟨el, c, hel, hc, hcp, _⟩ := (mem_childNodes_iff hs _ _).1 hmem
      have hce : c = e := by
        simp only at hc
        rw [hj] at hc
        exact (Option.some.inj hc).symm
      have := hU.ids_nonneg el (List.getElem?_mem hel)
      rw [hce] at hcp
      omega
    rw [h1, h2]
  | @step e p k he hpm hid hp ih =>
    intro j hj
    obtain ⟨ip, hip⟩ := List.mem_iff_getElem?.1 hpm
    rw [ho.count_eq]
    have h1 : (rootNodes elems).count (j, ((k + 1 : Nat) : Int)) = 0 := by
      apply List.count_eq_zero_of_not_mem
      intro hmem
      obtain ⟨c, hc, hcp, _⟩ := (mem_rootNodes_iff hs _).1 hmem
      have hce : c = e := by
        simp only at hc
        rw [hj] at hc
        exact (Option.some.inj hc).symm
      have := hU.ids_nonneg p hpm
      rw [hce] at hcp
      omega
    have h2 : ∀ a : Nat × Int, (childNodes elems a).count (j, ((k + 1 : Nat) : Int)) =
        if a == (ip, (k : Int)) then 1 else 0 := by
      intro a
      by_cases hmem : (j, ((k + 1 : Nat) : Int)) ∈ childNodes elems a
      · rw [count_eq_one_of_nodup (childNodes_nodup elems a) hmem]
        obtain ⟨el, c, hel, hc, hcp, hd⟩ := (mem_childNodes_iff hs _ _).1 hmem
        have hce : c = e := by
          simp only at hc
          rw [hj] at hc
          exact (Option.some.inj hc).symm
        have hep : el = p :=
          hU.elem_inj (List.getElem?_mem hel) hpm (by rw [hce] at hcp; omega)
        rw [hep] at hel
        have h1 : a.1 = ip := hU.position_inj hel hip
        have h2 : a.2 = (k : Int) := by
          simp only [Nat.cast_add, Nat.cast_one] at hd
          omega
        have : a = (ip, (k : Int)) := Prod.ext h1 h2
        simp [this]
      · rw [List.count_eq_zero_of_not_mem hmem]
        have : a ≠ (ip, (k : Int)) := by
          rintro rfl
          apply hmem
          exact (mem_childNodes_iff hs _ _).2 ⟨p, e, hip, hj, hid, by push_cast; rfl⟩
        simp [this]
    simp only [h2]
    rw [h1, sum_map_ite_eq_count, ih ip hip]


theorem nodup_length_le {l : List Nat} {n : Nat} (hn : l.Nodup) (hl : ∀ x ∈ l, x < n) :
    l.length ≤ n := by
  have h1 : l.toFinset ⊆ Finset.range n := by
    intro x hx
    exact Finset.mem_range.2 (hl x (List.mem_toFinset.1 hx))
  have h2 := Finset.card_le_card h1
  rw [List.toFinset_card_of_nodup hn, Finset.card_range] at h2
  exact h2

/-- The positions output by the traversal from the roots of a sorted index with unique
non-negative ids: the positions of the records that reach a root, each once. -/
theorem traversal_positions_of_uniqueIds {elems : List Elem} (hU : UniqueIds elems)
    (hs : elems.Pairwise (fun a b => a.parentId ≤ b.parentId)) {o : Output}
    (ho : Traversal (childNodes elems) (rootNodes elems) o) :
    (o.map Prod.fst).Nodup ∧ o.length ≤ elems.length ∧
    ∀ i e, elems[i]? = some e → (i ∈ o.map Prod.fst ↔ ∃ k, AncestorEdges elems e k) := by
  have hdepth := traversal_depth_of_sorted hs ho
  have hiff : ∀ i e, elems[i]? = some e →
      (i ∈ o.map Prod.fst ↔ ∃ k, AncestorEdges elems e k) := by
    intro i e he
    constructor
    · intro hi
      obtain ⟨a, ha, rfl⟩ := List.mem_map.1 hi
      obtain ⟨k, _, e', he', hek⟩ := hdepth a ha
      rw [he] at he'
      exact ⟨k, (Option.some.inj he') ▸ hek⟩
    · rintro ⟨k, hk⟩
      have hc := traversal_count_one_of_uniqueIds hU hs ho hk i he
      have hmem : (i, (k : Int)) ∈ o := by
        apply List.count_pos_iff.1
        omega
      exact List.mem_map.2 ⟨_, hmem, rfl⟩
  have hnodup : (o.map Prod.fst).Nodup := by
    rw [List.nodup_iff_count_le_one]
    intro j
    by_cases hj : j ∈ o.map Prod.fst
    · obtain ⟨a, ha, rfl⟩ := List.mem_map.1 hj
      obtain ⟨k, hk, e, he, hek⟩ := hdepth a ha
      have hc := traversal_count_one_of_uniqueIds hU hs ho hek a.1 he
      have heq : (o.map Prod.fst).count (a.1, (k : Int)).1 = o.count (a.1, (k : Int)) := by
        refine count_map_fst_eq ?_
        intro a' ha' ha1
        obtain ⟨k', hk', e', he', hek'⟩ := hdepth a' ha'
        simp only at ha1
        rw [ha1, he] at he'
        have h1 : e = e' := Option.some.inj he'
        subst h1
        have := hU.edges_unique hek' hek
        subst this
        exact Prod.ext ha1 hk'
      simp only at heq
      have hle : List.count a.1 (o.map Prod.fst) = 1 := by rw [heq, hc]
      omega
    · have h0 : List.count j (o.map Prod.fst) = 0 := List.count_eq_zero_of_not_mem hj
      omega
  refine ⟨hnodup, ?_, hiff⟩
  have hlt : ∀ x ∈ o.map Prod.fst, x < elems.length := by
    intro x hx
    obtain ⟨a, ha, rfl⟩ := List.mem_map.1 hx
    obtain ⟨_, _, e, he, _⟩ := hdepth a ha
    exact (List.getElem?_eq_some.1 he).1
  simpa using nodup_length_le hnodup hlt

theorem run_rec_traversal_of_uniqueIds {elems : List Elem} (hU : UniqueIds elems)
    (hs : elems.Pairwise (fun a b => a.parentId ≤ b.parentId)) :
    ∃ o, Traversal (childNodes elems) (rootNodes elems) o ∧
      ∀ fuel, elems.length + 1 ≤ fuel → run_rec elems fuel [] = some o := by
  obtain ⟨o, _, ho⟩ := print_tree_eq_of_uniqueIds hU hs (elems.length + 1) 0
    (find elems (-1)) [] (by omega) (by omega) (nodeDepth_root_of_sorted hs)
  refine ⟨o, ho, ?_⟩
  intro fuel hfuel
  obtain ⟨o', hrun, ho'⟩ := print_tree_eq_of_uniqueIds hU hs fuel 0 (find elems (-1)) []
    (by omega) (by omega) (nodeDepth_root_of_sorted hs)
  rw [ho.output_unique ho']
  simpa [run_rec] using hrun

theorem run_stack_traversal_of_uniqueIds {elems : List Elem} (hU : UniqueIds elems)
    (hs : elems.Pairwise (fun a b => a.parentId ≤ b.parentId)) {o : Output}
    (ho : Traversal (childNodes elems) (rootNodes elems) o) :
    ∃ o', Traversal (childNodesRev elems) (rootNodes elems).reverse o' ∧ o'.Perm o ∧
      ∀ fuel, elems.length ≤ fuel → run_stack elems fuel [] = some o' := by
  obtain ⟨o', ho', hperm⟩ := ho.perm_of_perm (childNodesRev_perm elems)
    (rootNodes elems).reverse (List.reverse_perm _)
  refine ⟨o', ho', hperm, ?_⟩
  intro fuel hfuel
  have hlen : o'.length ≤ fuel := by
    rw [hperm.length_eq]
    have := (traversal_positions_of_uniqueIds hU hs ho).2.1
    omega
  have hst : push_range (find elems (-1)) 0 [] = (rootNodes elems).reverse := by
    rw [push_range_eq, rootNodes, List.append_nil]
  have := run_stack_loop_eq elems fuel (rootNodes elems).reverse [] o' ho'
    (fun a ha => rootNodes_valid elems a (List.mem_reverse.1 ha)) hlen
  simpa [run_stack, hst] using this

theorem uniqueIds_build {input : List Elem} (h : UniqueIds input) :
    UniqueIds (build input) :=
  h.of_input_perm (build_perm input).symm

theorem uniqueIds_cyclicInput : UniqueIds cyclicInput :=
  ⟨by decide, by decide⟩

/-- C11: for every input collection with unique non-negative ids (every non-root parent id
naming some node, but no acyclicity assumed), both `run_rec` and `run_stack` return on the
built index, for every fuel above the node count; each outputs no position twice, so at
most as many pairs as there are nodes; and the positions output are exactly those of the
records whose parent chain reaches a root, so a node not reachable from a root is not
output.  The hypothesis on the parent ids is not needed for the proof. -/
theorem traversals_terminate_without_acyclicity (input : List Elem) (hU : UniqueIds input)
    (_hpar : ∀ e ∈ input, e.parentId ≠ -1 → ∃ p ∈ input, p.id = e.parentId) :
    ∃ out_rec out_stack : Output,
      (∀ fuel, (build input).length + 1 ≤ fuel →
        run_rec (build input) fuel [] = some out_rec) ∧
      (∀ fuel, (build input).length + 1 ≤ fuel →
        run_stack (build input) fuel [] = some out_stack) ∧
      (out_rec.map Prod.fst).Nodup ∧ (out_stack.map Prod.fst).Nodup ∧
      out_rec.length ≤ (build input).length ∧ out_stack.length ≤ (build input).length ∧
      (∀ i e, (build input)[i]? = some e →
        ((i ∈ out_rec.map Prod.fst ↔ ∃ k, AncestorEdges (build input) e k) ∧
         (i ∈ out_stack.map Prod.fst ↔ ∃ k, AncestorEdges (build input) e k))) := by
  have hUb := uniqueIds_build hU
  have hs := build_parentId_sorted input
  obtain ⟨o, ho, hrec⟩ := run_rec_traversal_of_uniqueIds hUb hs
  obtain ⟨o', _, hperm, hstack⟩ := run_stack_traversal_of_uniqueIds hUb hs ho
  obtain ⟨hnodup, hlen, hiff⟩ := traversal_positions_of_uniqueIds hUb hs ho
  have hpm : (o'.map Prod.fst).Perm (o.map Prod.fst) := hperm.map _
  refine ⟨o, o', hrec, fun fuel hf => hstack fuel (by omega), hnodup,
    hpm.nodup_iff.2 hnodup, hlen, by rw [hperm.length_eq]; exact hlen, ?_⟩
  intro i e he
  refine ⟨hiff i e he, ?_⟩
  rw [← hiff i e he]
  exact hpm.mem_iff

/-- Witness of C11: a root with a child, a self-parenting node and a two-node cycle. -/
theorem traversals_terminate_without_acyclicity_witness :
    UniqueIds cyclicInput ∧
    (∀ e ∈ cyclicInput, e.parentId ≠ -1 → ∃ p ∈ cyclicInput, p.id = e.parentId) ∧
    ∃ out_rec out_stack : Output,
      (∀ fuel, (build cyclicInput).length + 1 ≤ fuel →
        run_rec (build cyclicInput) fuel [] = some out_rec) ∧
      (∀ fuel, (build cyclicInput).length + 1 ≤ fuel →
        run_stack (build cyclicInput) fuel [] = some out_stack) ∧
      (out_rec.map Prod.fst).Nodup ∧ (out_stack.map Prod.fst).Nodup ∧
      out_rec.length ≤ (build cyclicInput).length ∧
      out_stack.length ≤ (build cyclicInput).length ∧
      (∀ i e, (build cyclicInput)[i]? = some e →
        ((i ∈ out_rec.map Prod.fst ↔ ∃ k, AncestorEdges (build cyclicInput) e k) ∧
         (i ∈ out_stack.map Prod.fst ↔ ∃ k, AncestorEdges (build cyclicInput) e k))) :=
  ⟨uniqueIds_cyclicInput, by decide,
    traversals_terminate_without_acyclicity cyclicInput uniqueIds_cyclicInput (by decide)⟩

/-! ## The states of the iterative traversal -/

theorem Traversal.sublist {α : Type} {kids : α → List α} {l o : List α}
    (h : Traversal kids l o) : l.Sublist o := by
  induction h with
  | nil => exact List.Sublist.refl _
  | cons _ _ _ ih2 =>
    exact List.Sublist.cons₂ _ (List.sublist_append_of_sublist_right ih2)

/-- The loop of `run_stack` is the iteration of `stack_step`. -/
theorem run_stack_loop_step (elems : List Elem) (fuel : Nat) (st : List (Nat × Int))
    (out : Output) :
    run_stack_loop elems (fuel + 1) st out =
      match stack_step elems (st, out) with
      | some s => run_stack_loop elems fuel s.1 s.2
      | none => if st = [] then some out else none := by
  cases st with
  | nil => simp [run_stack_loop, stack_step]
  | cons eli st =>
    cases hel : elems[eli.1]? with
    | none => simp [run_stack_loop, stack_step, hel]
    | some el => simp [run_stack_loop, stack_step, hel]

/-- Invariant of the loop of `run_stack`: the output so far, followed by the traversal of
the trees on the stack, is the whole output. -/
theorem stack_state_invariant (elems : List Elem) {o' : Output}
    (ho' : Traversal (childNodesRev elems) (rootNodes elems).reverse o') :
    ∀ (t : Nat) (s : List (Nat × Int) × Output), stack_state elems t = some s →
      ∃ rest, Traversal (childNodesRev elems) s.1 rest ∧ s.2 ++ rest = o' := by
  intro t
  induction t with
  | zero =>
    intro s hs
    simp only [stack_state, Option.some.injEq] at hs
    subst hs
    refine ⟨o', ?_, by simp⟩
    simpa [push_range_eq, rootNodes] using ho'
  | succ t ih =>
    intro s hs
    rw [stack_state] at hs
    cases hprev : stack_state elems t with
    | none => simp [hprev] at hs
    | some s0 =>
      rw [hprev, Option.some_bind] at hs
      obtain ⟨rest, hrest, heq⟩ := ih s0 hprev
      obtain ⟨st0, out0⟩ := s0
      cases st0 with
      | nil => simp [stack_step] at hs
      | cons eli st =>
        cases hel : elems[eli.1]? with
        | none => simp [stack_step, hel] at hs
        | some el =>
          simp only [stack_step, hel, Option.some.injEq] at hs
          subst hs
          cases hrest with
          | @cons _ _ o1 o2 h1 h2 =>
            refine ⟨o1 ++ o2, ?_, ?_⟩
            · have hpush : push_range (find elems el.id) (eli.2 + 1) st =
                  childNodesRev elems eli ++ st := by
                rw [push_range_eq, childNodesRev, childNodes_of_some hel]
              simp only [hpush]
              exact h1.append h2
            · simp only at heq ⊢
              rw [← heq]
              simp [List.append_assoc]

/-- C13: for every index built from an input with unique non-negative ids, after any number
of iterations of the loop of `run_stack` the positions on the stack and the positions
already output are pairwise distinct, so stack size plus output size is at most the node
count; in particular the stack holds at most `elems.size()` pairs.  The same holds with any
part `st` of the stack in place of the stack, which covers the program points inside an
iteration, where the stack is a part of the stack at the end of the iteration. -/
theorem stack_within_capacity (input : List Elem) (hU : UniqueIds input) :
    ∀ (t : Nat) (s : List (Nat × Int) × Output), stack_state (build input) t = some s →
      ((s.1 ++ s.2).map Prod.fst).Nodup ∧
      s.1.length + s.2.length ≤ (build input).length ∧
      s.1.length ≤ (build input).length ∧
      ∀ st : List (Nat × Int), st.Sublist s.1 →
        ((st ++ s.2).map Prod.fst).Nodup ∧ st.length + s.2.length ≤ (build input).length := by
  have hUb := uniqueIds_build hU
  have hs := build_parentId_sorted input
  obtain ⟨o, ho, _⟩ := run_rec_traversal_of_uniqueIds hUb hs
  obtain ⟨o', ho', hperm, _⟩ := run_stack_traversal_of_uniqueIds hUb hs ho
  obtain ⟨hnodup, hlen, _⟩ := traversal_positions_of_uniqueIds hUb hs ho
  have hnodup' : (o'.map Prod.fst).Nodup := (hperm.map _).nodup_iff.2 hnodup
  intro t s hst
  obtain ⟨rest, hrest, heq⟩ := stack_state_invariant (build input) ho' t s hst
  have hsub : (s.2 ++ s.1).Sublist o' := by
    rw [← heq]
    exact List.Sublist.append_left hrest.sublist _
  have hnd : ((s.2 ++ s.1).map Prod.fst).Nodup := hnodup'.sublist (hsub.map _)
  have hle : (s.2 ++ s.1).length ≤ (build input).length := by
    have h1 := hsub.length_le
    rw [hperm.length_eq] at h1
    omega
  rw [List.length_append] at hle
  have hcomm : (s.1 ++ s.2).Perm (s.2 ++ s.1) := List.perm_append_comm
  have hall : ((s.1 ++ s.2).map Prod.fst).Nodup := (hcomm.map _).nodup_iff.2 hnd
  refine ⟨hall, by omega, by omega, ?_⟩
  intro st hsl
  have h1 : (st ++ s.2).Sublist (s.1 ++ s.2) := List.Sublist.append_right hsl _
  have h2 := hsl.length_le
  exact ⟨hall.sublist (h1.map _), by omega⟩

/-- Witness of C13: the state after two iterations on the index of the example
scenario. -/
theorem stack_within_capacity_witness :
    UniqueIds exampleInput ∧
    stack_state (build exampleInput) 2 = some ([(1, 0), (0, 0)], [(2, 0), (3, 1)]) ∧
    ((([(1, 0), (0, 0)] : List (Nat × Int)) ++ [(2, 0), (3, 1)]).map Prod.fst).Nodup ∧
    2 + 2 ≤ (build exampleInput).length ∧ 2 ≤ (build exampleInput).length :=
  ⟨forest_exampleInput.uniqueIds, by decide,
    (stack_within_capacity exampleInput forest_exampleInput.uniqueIds 2
      ([(1, 0), (0, 0)], [(2, 0), (3, 1)]) (by decide)).1,
    (stack_within_capacity exampleInput forest_exampleInput.uniqueIds 2
      ([(1, 0), (0, 0)], [(2, 0), (3, 1)]) (by decide)).2.1,
    (stack_within_capacity exampleInput forest_exampleInput.uniqueIds 2
      ([(1, 0), (0, 0)], [(2, 0), (3, 1)]) (by decide)).2.2.1⟩

/-! ## The iterative traversal as a recursive traversal in reverse range order -/

/-- On the index of a forest `print_tree_rev` succeeds with the same budget as
`print_tree` and appends the pre-order traversal, children in reverse range order, of the
trees rooted in its range taken in reverse order. -/
theorem print_tree_rev_eq {elems : List Elem} (hF : ForestIndex elems) :
    ∀ (fuel k : Nat) (r : Nat × Nat) (out : Output),
      1 ≤ fuel → elems.length + 1 ≤ fuel + k →
      (∀ i ∈ rangeIdx r, NodeDepth elems i k) →
      ∃ o, print_tree_rev elems fuel r (k : Int) out = some (out ++ o) ∧
        Traversal (childNodesRev elems)
          ((rangeIdx r).map (fun i => (i, (k : Int)))).reverse o := by
  intro fuel
  induction fuel with
  | zero => intro k r out h1; omega
  | succ f ih =>
    intro k r out _ hfk hr
    rw [print_tree_rev, ← List.map_reverse]
    have hr' : ∀ i ∈ (rangeIdx r).reverse, NodeDepth elems i k :=
      fun i hi => hr i (List.mem_reverse.1 hi)
    generalize (rangeIdx r).reverse = l at hr'
    induction l generalizing out with
    | nil => exact ⟨[], by simp, Traversal.nil⟩
    | cons i l ihl =>
      obtain ⟨e, he, hek⟩ := hr' i (List.mem_cons_self _ _)
      have hklt := hek.lt_length hF.forest
      obtain ⟨o1, ho1, ht1⟩ := ih (k + 1) (find elems e.id) (out ++ [(i, (k : Int))])
        (by omega) (by omega) (NodeDepth.child hF hek)
      obtain ⟨o2, ho2, ht2⟩ := ihl (out ++ [(i, (k : Int))] ++ o1)
        (fun j hj => hr' j (List.mem_cons_of_mem _ hj))
      have hcast : ((k + 1 : Nat) : Int) = (k : Int) + 1 := by push_cast; rfl
      rw [hcast] at ho1 ht1
      refine ⟨(i, (k : Int)) :: (o1 ++ o2), ?_, ?_⟩
      · rw [List.foldlM_cons]
        simp only [he]
        rw [ho1]
        simp only [Option.bind_eq_bind, Option.some_bind]
        rw [ho2]
        simp [List.append_assoc]
      · rw [List.map_cons]
        refine Traversal.cons ?_ ht2
        rw [childNodesRev, childNodes_of_some (a := (i, (k : Int))) he]
        exact ht1

theorem run_rec_rev_traversal {elems : List Elem} (hF : ForestIndex elems) {o' : Output}
    (ho' : Traversal (childNodesRev elems) (rootNodes elems).reverse o') :
    ∀ fuel, elems.length + 1 ≤ fuel → run_rec_rev elems fuel [] = some o' := by
  intro fuel hfuel
  obtain ⟨o, hrun, ho⟩ := print_tree_rev_eq hF fuel 0 (find elems (-1)) []
    (by omega) (by omega) (NodeDepth.root hF)
  have ho2 : Traversal (childNodesRev elems) (rootNodes elems).reverse o := by
    simpa [rootNodes] using ho
  rw [ho'.output_unique ho2]
  simpa [run_rec_rev] using hrun

/-- Every node of a traversal is a root or a descendant of a root. -/
theorem Traversal.mem_cases {α : Type} {kids : α → List α} {l o : List α}
    (h : Traversal kids l o) : ∀ x ∈ o, x ∈ l ∨ ∃ a ∈ l, Descendant kids a x := by
  induction h with
  | nil => intro x hx; cases hx
  | @cons a l o1 o2 _ _ ih1 ih2 =>
    intro x hx
    rcases List.mem_cons.1 hx with rfl | hx
    · exact Or.inl (List.mem_cons_self _ _)
    · rcases List.mem_append.1 hx with hx | hx
      · right
        refine ⟨a, List.mem_cons_self _ _, ?_⟩
        rcases ih1 x hx with h1 | ⟨c, hc, hcx⟩
        · exact Descendant.child h1
        · exact Descendant.step hc hcx
      · rcases ih2 x hx with h2 | ⟨c, hc, hcx⟩
        · exact Or.inl (List.mem_cons_of_mem _ h2)
        · exact Or.inr ⟨c, List.mem_cons_of_mem _ hc, hcx⟩

theorem mem_childNodesRev_iff {elems : List Elem}
    (hs : elems.Pairwise (fun a b => a.parentId ≤ b.parentId)) (a b : Nat × Int) :
    b ∈ childNodesRev elems a ↔
      ∃ el c, elems[a.1]? = some el ∧ elems[b.1]? = some c ∧ c.parentId = el.id ∧
        b.2 = a.2 + 1 := by
  rw [childNodesRev, List.mem_reverse]
  exact mem_childNodes_iff hs a b

theorem isDescendant_lift_rev {elems : List Elem}
    (hs : elems.Pairwise (fun a b => a.parentId ≤ b.parentId)) {i j : Nat}
    (h : IsDescendant elems i j) :
    ∀ d : Int, ∃ d' : Int, Descendant (childNodesRev elems) (i, d) (j, d') := by
  induction h with
  | child hc =>
    intro d
    obtain ⟨p, c, hp, hc, hid⟩ := hc
    exact ⟨d + 1,
      Descendant.child ((mem_childNodesRev_iff hs _ _).2 ⟨p, c, hp, hc, hid, rfl⟩)⟩
  | step hc _ ih =>
    intro d
    obtain ⟨p, c, hp, hc, hid⟩ := hc
    obtain ⟨d', hd'⟩ := ih (d + 1)
    exact ⟨d',
      Descendant.step ((mem_childNodesRev_iff hs _ _).2 ⟨p, c, hp, hc, hid, rfl⟩) hd'⟩

theorem isDescendant_of_rev {elems : List Elem}
    (hs : elems.Pairwise (fun a b => a.parentId ≤ b.parentId)) {a b : Nat × Int}
    (h : Descendant (childNodesRev elems) a b) : IsDescendant elems a.1 b.1 := by
  induction h with
  | child hb =>
    obtain ⟨el, c, hel, hc, hcp, _⟩ := (mem_childNodesRev_iff hs _ _).1 hb
    exact IsDescendant.child ⟨el, c, hel, hc, hcp⟩
  | step hc _ ih =>
    obtain ⟨el, c, hel, hcc, hcp, _⟩ := (mem_childNodesRev_iff hs _ _).1 hc
    exact IsDescendant.step ⟨el, c, hel, hcc, hcp⟩ ih

/-- C15: for every input collection that is a forest, the output of `run_stack` is, pair by
pair, the output of the recursive pre-order traversal that iterates every range (the roots
included) in reverse order; every node is output before all its descendants, and directly
after every node come exactly its descendants, as one contiguous block. -/
theorem stack_is_reverse_preorder (input : List Elem) (hF : Forest input) :
    ∃ out : Output,
      (∀ fuel, (build input).length + 1 ≤ fuel →
        run_stack (build input) fuel [] = some out) ∧
      (∀ fuel, (build input).length + 1 ≤ fuel →
        run_rec_rev (build input) fuel [] = some out) ∧
      (∀ i j, IsDescendant (build input) i j → EmittedBefore out i j) ∧
      (∀ i, i < (build input).length →
        ∃ (d : Int) (p sub s : Output), out = p ++ (i, d) :: (sub ++ s) ∧
          ∀ x, x ∈ sub.map Prod.fst ↔ IsDescendant (build input) i x) := by
  have hI := forestIndex_build hF
  obtain ⟨o, ho, _⟩ := run_rec_traversal hI
  obtain ⟨o', ho', hperm, hstack⟩ := run_stack_traversal hI ho
  have hn := traversal_nodup hI ho hperm
  have hblock : ∀ i, i < (build input).length →
      ∃ (d : Int) (p sub s : Output), o' = p ++ (i, d) :: (sub ++ s) ∧
        ∀ x, x ∈ sub.map Prod.fst ↔ IsDescendant (build input) i x := by
    intro i hi
    obtain ⟨d, hd⟩ := traversal_mem_of_valid hI ho hperm hi
    obtain ⟨p, sub, s, hsplit, hsub⟩ := ho'.subtree _ hd
    refine ⟨d, p, sub, s, hsplit, ?_⟩
    intro x
    constructor
    · intro hx
      obtain ⟨b, hb, rfl⟩ := List.mem_map.1 hx
      have hdesc : Descendant (childNodesRev (build input)) (i, d) b := by
        rcases hsub.mem_cases b hb with h1 | ⟨c, hc, hcb⟩
        · exact Descendant.child h1
        · exact Descendant.step hc hcb
      exact isDescendant_of_rev hI.sorted hdesc
    · intro hx
      obtain ⟨d', hdesc⟩ := isDescendant_lift_rev hI.sorted hx d
      exact List.mem_map.2 ⟨(x, d'), hdesc.mem_traversal sub hsub, rfl⟩
  refine ⟨o', fun fuel hf => hstack fuel (by omega), run_rec_rev_traversal hI ho', ?_, hblock⟩
  intro i j hij
  have hi : i < (build input).length := by
    cases hij with
    | child hc =>
      obtain ⟨p, c, hp, _, _⟩ := hc
      exact (List.getElem?_eq_some.1 hp).1
    | step hc _ =>
      obtain ⟨p, c, hp, _, _⟩ := hc
      exact (List.getElem?_eq_some.1 hp).1
  obtain ⟨d, p, sub, s, hsplit, hsub⟩ := hblock i hi
  obtain ⟨b, hb, hbj⟩ := List.mem_map.1 ((hsub j).2 hij)
  have := emittedBefore_of_split (a := (i, d)) (b := b) hn hsplit (List.mem_append_left _ hb)
  rw [hbj] at this
  exact this

/-- Witness of C15 on the example scenario. -/
theorem stack_is_reverse_preorder_witness :
    Forest exampleInput ∧
    ∃ out : Output,
      (∀ fuel, (build exampleInput).length + 1 ≤ fuel →
        run_stack (build exampleInput) fuel [] = some out) ∧
      (∀ fuel, (build exampleInput).length + 1 ≤ fuel →
        run_rec_rev (build exampleInput) fuel [] = some out) ∧
      (∀ i j, IsDescendant (build exampleInput) i j → EmittedBefore out i j) ∧
      (∀ i, i < (build exampleInput).length →
        ∃ (d : Int) (p sub s : Output), out = p ++ (i, d) :: (sub ++ s) ∧
          ∀ x, x ∈ sub.map Prod.fst ↔ IsDescendant (build exampleInput) i x) :=
  ⟨forest_exampleInput, stack_is_reverse_preorder exampleInput forest_exampleInput⟩

end StackVsRec
